import Mathlib

/-!
Shallow embedding of the core of `c_impute/c_impute.py` (cImpute: conditional
imputation of missing values in proteomics intensity matrices).

Modelling conventions:
* a cell of the intensity matrix is an `Option ℚ`; `none` stands for a missing
  value (`NaN` in the source), `some v` for an observed intensity `v`;
* a data frame restricted to one experimental group is a `List Row`, a list of
  feature rows in their original order; the number of group columns
  (`len(list(df_group))` in the source) is passed explicitly as `n` since a
  bare list of rows does not carry a column count;
* Python floats are modelled as rationals; `round(x, 2)` is modelled by
  `round2`, rounding half to even as Python's `round` does;
* the random draws of `scipy.stats.truncnorm.rvs` and the cell estimates of
  `sklearn.impute.KNNImputer` are external, non-deterministic inputs; they are
  supplied as explicit oracle arguments (`t`, `g`), mirroring the flattened
  index layout of the source.
-/

namespace CImpute

/-- Missing value classes of cImpute (`LIST_MV_CLASSES` in the source). -/
inductive MVClass where
  | MCAR
  | MNAR
  | MAR
  | NM
deriving DecidableEq, Repr

open MVClass

/-- Source constant `LIST_MV_CLASSES = [STR_MCAR, STR_MNAR, STR_MAR, STR_NM]`. -/
def LIST_MV_CLASSES : List MVClass := [MCAR, MNAR, MAR, NM]

/-- One feature row of a group sub-matrix; `none` is a missing value (NaN). -/
abbrev Row := List (Option ℚ)

/-- Source helper `count_nan = lambda val: len([x for x in val if str(x) == "nan"])`:
the number of missing cells of a row. -/
def countNan (vals : Row) : ℕ := vals.countP (fun x => x.isNone)

/-- Python `round` rounds half to even (banker's rounding); this is the integer
rounding underlying `round(x, 2)` of the source. -/
def roundHalfToEven (q : ℚ) : ℤ :=
  if q - ⌊q⌋ < 1/2 then ⌊q⌋
  else if 1/2 < q - ⌊q⌋ then ⌊q⌋ + 1
  else if Even ⌊q⌋ then ⌊q⌋ else ⌊q⌋ + 1

/-- Source `round(x, 2)`: round to two decimal places. -/
def round2 (q : ℚ) : ℚ := (roundHalfToEven (100 * q) : ℚ) / 100

/-- Source `_compute_cs(vals, mv_class, n)`: confidence score of one row given
its missing value class and the group size `n`. -/
def _compute_cs (vals : Row) (mv_class : MVClass) (n : ℕ) : ℚ :=
  match mv_class with
  | NM => 1
  | MAR => 0
  | MCAR => round2 (((n : ℚ) - countNan vals) / n)
  | MNAR => round2 ((countNan vals : ℚ) / n)

/-- Predicate of the source expression `row > up_mnar`: an observed value
strictly above the MNAR upper bound (`NaN > up_mnar` is false in pandas). -/
def isHigher (up_mnar : ℚ) (x : Option ℚ) : Bool :=
  match x with
  | some v => decide (up_mnar < v)
  | none => false

/-- Predicate of the source expression `row <= up_mnar`: an observed value at
or below the MNAR upper bound (`NaN <= up_mnar` is false in pandas). -/
def isLowerOrEqual (up_mnar : ℚ) (x : Option ℚ) : Bool :=
  match x with
  | some v => decide (v ≤ up_mnar)
  | none => false

/-- Classification of one feature row inside `classify_of_mvs`: the four
guards are evaluated in source order (MNAR, then MCAR, then NM, with MAR as
the fallthrough). `n_groups` is the number of group columns. -/
def classify_row (up_mnar : ℚ) (n_groups : ℕ) (row : Row) : MVClass :=
  let n_nan := countNan row
  let n_higher_up_mnar := row.countP (isHigher up_mnar)
  let n_lower_or_equal_up_mnar := row.countP (isLowerOrEqual up_mnar)
  if n_lower_or_equal_up_mnar + n_nan = n_groups then MNAR
  else if n_higher_up_mnar + n_nan = n_groups then MCAR
  else if n_higher_up_mnar + n_lower_or_equal_up_mnar = n_groups then NM
  else MAR

/-- Source `classify_of_mvs(df_group, up_mnar)`: per-row classification of the
missing values of one experimental group; `n_groups = len(list(df_group))` is
the group's column count, passed explicitly. -/
def classify_of_mvs (df_group : List Row) (up_mnar : ℚ) (n_groups : ℕ) : List MVClass :=
  df_group.map (classify_row up_mnar n_groups)

/-- All observed (non-missing) cell values of a data frame, row major; the
source's pandas `min`/`max` skip NaN, i.e. range over exactly this list. -/
def observed_vals (df : List Row) : List ℚ :=
  (df.map (fun r => r.filterMap id)).flatten

/-- Source `get_up_mnar(df, loc_up_mnar)`: detection limit `d_min`
(`df.min().min()`), detection range, and upper MNAR bound
`up_mnar = d_min + loc_up_mnar * (d_max - d_min)`. On a data frame with no
observed cell the source's min/max are NaN; this degenerate boundary is
modelled as `none`. -/
def get_up_mnar (df : List Row) (loc_up_mnar : ℚ) : Option (ℚ × ℚ) :=
  match observed_vals df with
  | [] => none
  | q :: qs =>
    let d_min := qs.foldl min q
    let d_max := qs.foldl max q
    let dr := d_max - d_min
    some (d_min, d_min + loc_up_mnar * dr)

/-- Boolean-mask row selection, the source's `df_group[mask]` read access:
keeps the elements whose mask entry is `True`, in order. -/
def mask_rows {α : Type} (xs : List α) (mask : List Bool) : List α :=
  (xs.zip mask).filterMap (fun p => if p.2 then some p.1 else none)

/-- Python dict assignment `dict_prot_cs[entry] = cs`: a later binding for the
same key shadows an earlier one. -/
def dict_insert (d : List (ℕ × ℚ)) (k : ℕ) (v : ℚ) : List (ℕ × ℚ) :=
  (k, v) :: d

/-- Python dict read `dict_prot_cs[entry]`: the most recent binding of the key;
`none` models the `KeyError` raised when the key is absent. -/
def dict_lookup : List (ℕ × ℚ) → ℕ → Option ℚ
  | [], _ => none
  | (k, v) :: d, i => if i = k then some v else dict_lookup d i

/-- Source `compute_cs(df_group, mv_classes)`: scores are computed by
iterating over the four classes, masking the group's rows by class, filling a
dict keyed by the row's original index (`entry`), and finally reading the dict
back in the order of `df_group.index`. Row indices model the data frame index
labels (positions `0, 1, ...`); `n = len(list(df_group))` is the column count. -/
def compute_cs (df_group : List Row) (mv_classes : List MVClass) (n : ℕ) :
    List (Option ℚ) :=
  let indexed := (List.range df_group.length).zip df_group
  let dict := LIST_MV_CLASSES.foldl (fun d mv_class =>
    let mask := mv_classes.map (fun l => decide (l = mv_class))
    let sub := mask_rows indexed mask
    sub.foldl (fun d er => dict_insert d er.1 (_compute_cs er.2 mv_class n)) d) []
  (List.range df_group.length).map (dict_lookup dict)

/-- The dict entries contributed by one class iteration of `compute_cs`: the
(index, score) pairs of the rows masked as `c`, in iteration order. -/
def cs_entries (df_group : List Row) (mv_classes : List MVClass) (n : ℕ)
    (c : MVClass) : List (ℕ × ℚ) :=
  (mask_rows ((List.range df_group.length).zip df_group)
      (mv_classes.map (fun l => decide (l = c)))).map
    (fun er => (er.1, _compute_cs er.2 c n))

/-- Modelled from the scipy contract of `truncnorm.rvs(a, b, loc, scale)`
(external library): each draw is `loc + scale * t` where `t` is the underlying
truncated-standard-normal sample, which scipy guarantees to lie in `[a, b]`;
the sample `t` is supplied by the caller's oracle. -/
def truncnorm_rvs (a b loc scale t : ℚ) : ℚ := loc + scale * t

/-- One row of `_impute_mnr`'s write `df[mask] = vals`: missing cells receive
the flat-indexed generated values (offset `off` into the reshaped value
matrix), observed cells are left unchanged. -/
def _mnr_row (vals : ℕ → ℚ) : ℕ → Row → Row
  | _, [] => []
  | off, none :: cs => some (vals off) :: _mnr_row vals (off + 1) cs
  | off, some v :: cs => some v :: _mnr_row vals (off + 1) cs

/-- Rows of `_impute_mnr`: row `i` of the `(d1, d2)`-reshaped value matrix
starts at flat index `i * d2`. -/
def _mnr_rows (vals : ℕ → ℚ) (d2 : ℕ) : ℕ → List Row → List Row
  | _, [] => []
  | i, row :: rest => _mnr_row vals (i * d2) row :: _mnr_rows vals d2 (i + 1) rest

/-- Source `_impute_mnr(df, std_factor, d_min, up_mnar)` (MinProb imputation):
`std = (up_mnar - d_min) * std_factor`; draws
`truncnorm.rvs(a=0, b=1, size=d1*d2, loc=d_min, scale=std)` reshaped to the
block's shape are written into exactly the missing cells. The oracle `t`
supplies the underlying truncated-normal samples (one per flat index). -/
def _impute_mnr (t : ℕ → ℚ) (df : List Row) (std_factor d_min up_mnar : ℚ) :
    List Row :=
  let d2 := (df.headD []).length
  let std := (up_mnar - d_min) * std_factor
  let vals := fun idx => truncnorm_rvs 0 1 d_min std (t idx)
  _mnr_rows vals d2 0 df

/-- One row of the KNN-imputed block: missing cells receive the estimator's
value for that (row, column) position, observed cells are unchanged. -/
def _mcar_row (g : ℕ → ℕ → ℚ) (i : ℕ) : ℕ → Row → Row
  | _, [] => []
  | j, none :: cs => some (g i j) :: _mcar_row g i (j + 1) cs
  | j, some v :: cs => some v :: _mcar_row g i (j + 1) cs

/-- Rows of the KNN-imputed block, positionally indexed. -/
def _mcar_rows (g : ℕ → ℕ → ℚ) : ℕ → List Row → List Row
  | _, [] => []
  | i, row :: rest => _mcar_row g i 0 row :: _mcar_rows g (i + 1) rest

/-- Source `_impute_mcar(df, n_neighbors)`; the KNN estimation itself is
`sklearn.impute.KNNImputer` (external library). Modelled from the spec: the
neighbor-weighting formula is delegated to that well-known method, so the
estimate for each missing cell is supplied by the oracle `g` (which may depend
on the whole block and on `n_neighbors`); KNNImputer fills the missing cells,
leaves observed cells unchanged, and preserves the block's shape, row order
and column order (`df = pd.DataFrame(X, columns=cols, index=index)`). -/
def _impute_mcar (g : ℕ → ℕ → ℚ) (df : List Row) (n_neighbors : ℕ) : List Row :=
  _mcar_rows g 0 df

/-- Source `_impute(df, mv_class, d_min, up_mnar, std_factor, n_neighbors)`:
dispatch to the class-specific imputation method; NM and MAR are no-ops. -/
def _impute (t : ℕ → ℚ) (g : ℕ → ℕ → ℚ) (df : List Row) (mv_class : MVClass)
    (d_min up_mnar std_factor : ℚ) (n_neighbors : ℕ) : List Row :=
  match mv_class with
  | NM => df
  | MAR => df
  | MCAR => _impute_mcar g df n_neighbors
  | MNAR => _impute_mnr t df std_factor d_min up_mnar

/-- Row mask of one `impute` loop iteration:
`[True if (l == mv_class and cs >= min_cs) else False for l, cs in zip(mv_classes, list_cs)]`. -/
def impute_mask (mv_classes : List MVClass) (list_cs : List ℚ) (min_cs : ℚ)
    (mv_class : MVClass) : List Bool :=
  (mv_classes.zip list_cs).map
    (fun p => decide (p.1 = mv_class) && decide (min_cs ≤ p.2))

/-- Boolean-mask row assignment, the source's `df_group[mask] = new`: the
masked rows are replaced positionally by the rows of `new` (pandas aligns the
written block on the masked rows' index labels, which is exactly positional
replacement). -/
def write_back : List Row → List Bool → List Row → List Row
  | [], _, _ => []
  | rows, [], _ => rows
  | r :: rs, b :: ms, new =>
    if b then
      match new with
      | [] => r :: write_back rs ms []
      | nr :: ns => nr :: write_back rs ms ns
    else r :: write_back rs ms new

/-- The sub-block handed to the class-specific imputer in one iteration of
`impute`'s loop: `df_group[mask]`. For `mv_class = MCAR` this is the block the
KNN imputer operates on. -/
def class_block (df : List Row) (mv_classes : List MVClass) (list_cs : List ℚ)
    (min_cs : ℚ) (mv_class : MVClass) : List Row :=
  mask_rows df (impute_mask mv_classes list_cs min_cs mv_class)

/-- One iteration of `impute`'s loop over `LIST_MV_CLASSES`:
`df_group[mask] = _impute(df=df_group[mask], mv_class=mv_class, **args)`. -/
def impute_step (t : ℕ → ℚ) (g : ℕ → ℕ → ℚ) (mv_classes : List MVClass)
    (list_cs : List ℚ) (min_cs d_min up_mnar std_factor : ℚ) (n_neighbors : ℕ)
    (df : List Row) (mv_class : MVClass) : List Row :=
  let mask := impute_mask mv_classes list_cs min_cs mv_class
  write_back df mask
    (_impute t g (class_block df mv_classes list_cs min_cs mv_class) mv_class
      d_min up_mnar std_factor n_neighbors)

/-- Source `impute(df_group, mv_classes, list_cs, min_cs, d_min, up_mnar,
n_neighbors, std_factor)`: group-wise imputation; for each of the four classes
in `LIST_MV_CLASSES` order, the rows of that class whose confidence score
reaches `min_cs` are replaced by the class-specific imputation of that
sub-block. -/
def impute (t : ℕ → ℚ) (g : ℕ → ℕ → ℚ) (df_group : List Row)
    (mv_classes : List MVClass) (list_cs : List ℚ)
    (min_cs d_min up_mnar : ℚ) (n_neighbors : ℕ) (std_factor : ℚ) : List Row :=
  LIST_MV_CLASSES.foldl
    (impute_step t g mv_classes list_cs min_cs d_min up_mnar std_factor n_neighbors)
    df_group

/-- Mean of a list of rationals (`np.mean`). -/
def list_mean (xs : List ℚ) : ℚ := xs.sum / xs.length

/-- Population variance of a list of rationals; `np.std` is the square root of
this. The source stores `CS_STD = np.array(cs_vals).std(axis=0).round(2)`; the
square root is irrational in general, so the run output records the variance
instead, from which the source's std column is determined. -/
def list_var (xs : List ℚ) : ℚ :=
  list_mean (xs.map (fun x => (x - list_mean xs) ^ 2))

/-- Column `j` of a list-of-lists (`np.array(cs_vals)[:, j]`). -/
def col_vals (xss : List (List ℚ)) (j : ℕ) : List ℚ :=
  xss.map (fun xs => xs.getD j 0)

/-- Output of `cImpute.run`, stripped of the pandas column-label bookkeeping:
the per-group imputed value blocks (whose column-wise concatenation is the
value part of `df_imputed`), the per-feature aggregated confidence scores
(`CS_MEAN`, and the variance underlying `CS_STD`), the per-group confidence
score columns (`CS_<group>`) and the per-group class label columns
(`NaN_<group>`). -/
structure RunResult where
  df_imputed : List (List Row)
  cs_mean : List ℚ
  cs_var : List ℚ
  cs_groups : List (List ℚ)
  nan_groups : List (List MVClass)
deriving DecidableEq, Repr

/-- Per-group loop body of `cImpute.run`: classify, score, impute. Each group
is a pair `(n, df_group)` of its column count (`len(dict_group_cols[group])`)
and its rows; `gi` is the position of the group in `dict_group_cols` order,
used only to select that group's imputation oracles. The confidence scores
are read out of `compute_cs`'s dict with default 0 for an absent key (the dict
read always succeeds in the source; see the compute_cs order theorem). -/
def run_groups (t : ℕ → ℕ → ℚ) (g : ℕ → ℕ → ℕ → ℚ)
    (d_min up_mnar min_cs std_factor : ℚ) (n_neighbors : ℕ) :
    ℕ → List (ℕ × List Row) → List (List Row × List ℚ × List MVClass)
  | _, [] => []
  | gi, (n, df_group) :: rest =>
    let mv_classes := classify_of_mvs df_group up_mnar n
    let list_cs := (compute_cs df_group mv_classes n).map (fun o => o.getD 0)
    let df_imp := impute (t gi) (g gi) df_group mv_classes list_cs min_cs
      d_min up_mnar n_neighbors std_factor
    (df_imp, list_cs, mv_classes) ::
      run_groups t g d_min up_mnar min_cs std_factor n_neighbors (gi + 1) rest

/-- Source `cImpute.run(df, dict_group_cols, loc_up_mnar, min_cs, std_factor,
n_neigbhors)`: computes the global boundary over all group columns
(`get_up_mnar(df[all_group_cols], loc_up_mnar)`; the vertical stacking of the
group blocks has the same multiset of cells as the column selection, hence the
same min and max), then classifies, scores and imputes every group, then
aggregates. The source performs no validation of `loc_up_mnar`, `min_cs`,
`std_factor` or `n_neighbors`; the only degenerate case, a matrix with no
observed cell (NaN boundaries in the source), is modelled as `none`. -/
def run (t : ℕ → ℕ → ℚ) (g : ℕ → ℕ → ℕ → ℚ) (groups : List (ℕ × List Row))
    (loc_up_mnar min_cs std_factor : ℚ) (n_neighbors : ℕ) : Option RunResult :=
  match get_up_mnar ((groups.map Prod.snd).flatten) loc_up_mnar with
  | none => none
  | some bounds =>
    let per := run_groups t g bounds.1 bounds.2 min_cs std_factor n_neighbors 0 groups
    let cs_vals := per.map (fun p => p.2.1)
    let n_feat := (groups.headD (0, [])).2.length
    some
    { df_imputed := per.map (fun p => p.1)
      cs_mean := (List.range n_feat).map (fun j => round2 (list_mean (col_vals cs_vals j)))
      cs_var := (List.range n_feat).map (fun j => list_var (col_vals cs_vals j))
      cs_groups := cs_vals
      nan_groups := per.map (fun p => p.2.2) }

/-- Predicate needed by several theorems: the imputed row `r'` has the same
column count as the input row `r` and agrees with it on every observed cell. -/
def preserves_observed (r r' : Row) : Prop :=
  r'.length = r.length ∧
  ∀ j, j < r.length → (r.getD j none).isSome = true → r'.getD j none = r.getD j none

instance (r r' : Row) : Decidable (preserves_observed r r') := by
  unfold preserves_observed; infer_instance

/-! ## Theorems -/

/-- The three per-row counts of `classify_of_mvs` partition the row: every
cell is either missing, observed above `up_mnar`, or observed at or below it. -/
theorem counts_partition (row : Row) (up : ℚ) :
    countNan row + row.countP (isHigher up) + row.countP (isLowerOrEqual up)
      = row.length := by
  induction row with
  | nil => rfl
  | cons a l ih =>
    cases a with
    | none =>
      simp [countNan, List.countP_cons, isHigher, isLowerOrEqual] at ih ⊢
      omega
    | some v =>
      rcases le_or_lt v up with h | h
      · simp [countNan, List.countP_cons, isHigher, isLowerOrEqual, h,
          not_lt.2 h] at ih ⊢
        omega
      · simp [countNan, List.countP_cons, isHigher, isLowerOrEqual, h,
          not_le.2 h] at ih ⊢
        omega

/-- C1, counterexample: the complete row `[1, 1]` (zero missing values) with
`up_mnar = 5` in a group of 2 samples is classified MNAR by `classify_of_mvs`,
not NM: with no NaNs, rule 1 (`n_low + n_nan == n`) already fires when all
observed values lie at or below `up_mnar`, so the claim that a row with zero
missing values always gets NM is false. -/
theorem claim_C1_counterexample :
    countNan [some 1, some 1] = 0 ∧
    classify_of_mvs [[some 1, some 1]] 5 2 = [MVClass.MNAR] ∧
    classify_of_mvs [[some 1, some 1]] 5 2 ≠ [MVClass.NM] := by
  refine ⟨by decide, by decide, by decide⟩

/-- C1, amended: for a feature row with zero missing values in a group of
`n` samples, `classify_of_mvs` assigns NM exactly when the observed values lie
on both sides of `up_mnar`; a complete row with all values at or below
`up_mnar` is classified MNAR by the first rule, and one with all values above
`up_mnar` is classified MCAR by the second rule, before the NM check is
reached. -/
theorem claim_C1_theorem (row : Row) (up_mnar : ℚ) (n : ℕ)
    (hlen : row.length = n) (hnan : countNan row = 0) (hn : 0 < n) :
    (classify_row up_mnar n row = MVClass.NM ↔
      0 < row.countP (isHigher up_mnar) ∧ 0 < row.countP (isLowerOrEqual up_mnar)) ∧
    (classify_row up_mnar n row = MVClass.MNAR ↔
      row.countP (isLowerOrEqual up_mnar) = n) ∧
    (classify_row up_mnar n row = MVClass.MCAR ↔
      row.countP (isHigher up_mnar) = n) := by
  have hpart := counts_partition row up_mnar
  rw [hnan, hlen] at hpart
  have hcls : classify_row up_mnar n row =
      if row.countP (isLowerOrEqual up_mnar) = n then MVClass.MNAR
      else if row.countP (isHigher up_mnar) = n then MVClass.MCAR
      else MVClass.NM := by
    simp only [classify_row, hnan, Nat.add_zero]
    split_ifs <;> first | rfl | (exfalso; omega)
  refine ⟨?_, ?_, ?_⟩ <;> rw [hcls] <;> split_ifs with h1 h2 <;>
    constructor <;> intro hx <;>
    first
      | rfl
      | omega
      | (exact absurd hx (by decide))
      | (exfalso; omega)

/-- C1, witness: the complete row `[1, 10]` with `up_mnar = 5` in a group of
2 samples has values on both sides of the bound and is classified NM. -/
theorem claim_C1_witness :
    ([some 1, some 10] : Row).length = 2 ∧
    countNan [some 1, some 10] = 0 ∧ 0 < 2 ∧
    ((classify_row 5 2 [some 1, some 10] = MVClass.NM ↔
      0 < ([some 1, some 10] : Row).countP (isHigher 5) ∧
      0 < ([some 1, some 10] : Row).countP (isLowerOrEqual 5)) ∧
    (classify_row 5 2 [some 1, some 10] = MVClass.MNAR ↔
      ([some 1, some 10] : Row).countP (isLowerOrEqual 5) = 2) ∧
    (classify_row 5 2 [some 1, some 10] = MVClass.MCAR ↔
      ([some 1, some 10] : Row).countP (isHigher 5) = 2)) :=
  ⟨by decide, by decide, by decide,
    claim_C1_theorem [some 1, some 10] 5 2 (by decide) (by decide) (by decide)⟩

/-- C2, counterexample: for a group of 4 samples, the row
`[NaN, NaN, NaN, 5.0]` with `up_mnar = 10` is NOT classified MCAR: since
`5.0 ≤ 10`, the counts are `n_low = 1, n_high = 0, n_nan = 3`, so rule 1
(`n_low + n_nan == n`) fires first. -/
theorem claim_C2_counterexample :
    classify_of_mvs [[none, none, none, some 5]] 10 4 ≠ [MVClass.MCAR] := by
  decide

/-- C2, amended: for a group of 4 samples, the row `[NaN, NaN, NaN, 5.0]` with
`up_mnar = 10` is classified MNAR (`n_low = 1, n_high = 0, n_nan = 3`, and
`n_low + n_nan = 4 = n`, so the MNAR rule fires before MCAR is considered). -/
theorem claim_C2_theorem :
    classify_of_mvs [[none, none, none, some 5]] 10 4 = [MVClass.MNAR] := by
  decide

/-- C3: the confidence score of a row with `n_nan` missing values in a group
of `n` samples is exactly 1 for class NM, exactly 0 for class MAR,
`(n - n_nan) / n` rounded to 2 decimals for class MCAR, and `n_nan / n`
rounded to 2 decimals for class MNAR. -/
theorem claim_C3_theorem (vals : Row) (n k : ℕ)
    (hk : countNan vals = k) (hn : 0 < n) :
    _compute_cs vals MVClass.NM n = 1 ∧
    _compute_cs vals MVClass.MAR n = 0 ∧
    _compute_cs vals MVClass.MCAR n = round2 (((n : ℚ) - k) / n) ∧
    _compute_cs vals MVClass.MNAR n = round2 ((k : ℚ) / n) := by
  subst hk
  exact ⟨rfl, rfl, rfl, rfl⟩

/-- C3, witness: the row `[1, NaN, NaN]` in a group of 3 samples has 2 missing
values; its scores are 1 (NM), 0 (MAR), `round2(1/3) = 0.33` (MCAR) and
`round2(2/3) = 0.67` (MNAR). -/
theorem claim_C3_witness :
    countNan [some 1, none, none] = 2 ∧ 0 < 3 ∧
    (_compute_cs [some 1, none, none] MVClass.NM 3 = 1 ∧
     _compute_cs [some 1, none, none] MVClass.MAR 3 = 0 ∧
     _compute_cs [some 1, none, none] MVClass.MCAR 3 = round2 (((3 : ℚ) - 2) / 3) ∧
     _compute_cs [some 1, none, none] MVClass.MNAR 3 = round2 ((2 : ℚ) / 3)) :=
  ⟨by decide, by decide,
    claim_C3_theorem [some 1, none, none] 3 2 (by decide) (by decide)⟩

/-- Folding `min` over a list starting from `q` yields one of the values. -/
theorem foldl_min_mem (qs : List ℚ) (q : ℚ) : qs.foldl min q ∈ q :: qs := by
  induction qs generalizing q with
  | nil => simp
  | cons a as ih =>
    rw [List.foldl_cons]
    rcases List.mem_cons.1 (ih (min q a)) with h | h
    · rw [h]
      rcases min_cases q a with ⟨he, _⟩ | ⟨he, _⟩ <;> rw [he] <;> simp
    · simp [h]

/-- Folding `min` over a list is a lower bound of the start and every value. -/
theorem foldl_min_le (qs : List ℚ) (q : ℚ) :
    ∀ x ∈ q :: qs, qs.foldl min q ≤ x := by
  induction qs generalizing q with
  | nil =>
    intro x hx
    rw [List.mem_singleton] at hx
    rw [hx]
    exact le_refl _
  | cons a as ih =>
    intro x hx
    rw [List.foldl_cons]
    have hstart : as.foldl min (min q a) ≤ min q a :=
      ih (min q a) (min q a) (List.mem_cons_self _ _)
    rcases List.mem_cons.1 hx with h | hx'
    · rw [h]; exact le_trans hstart (min_le_left _ _)
    · rcases List.mem_cons.1 hx' with h | hx''
      · rw [h]; exact le_trans hstart (min_le_right _ _)
      · exact ih (min q a) x (List.mem_cons_of_mem _ hx'')

/-- Folding `max` over a list starting from `q` yields one of the values. -/
theorem foldl_max_mem (qs : List ℚ) (q : ℚ) : qs.foldl max q ∈ q :: qs := by
  induction qs generalizing q with
  | nil => simp
  | cons a as ih =>
    rw [List.foldl_cons]
    rcases List.mem_cons.1 (ih (max q a)) with h | h
    · rw [h]
      rcases max_cases q a with ⟨he, _⟩ | ⟨he, _⟩ <;> rw [he] <;> simp
    · simp [h]

/-- Folding `max` over a list is an upper bound of the start and every value. -/
theorem le_foldl_max (qs : List ℚ) (q : ℚ) :
    ∀ x ∈ q :: qs, x ≤ qs.foldl max q := by
  induction qs generalizing q with
  | nil =>
    intro x hx
    rw [List.mem_singleton] at hx
    rw [hx]
    exact le_refl _
  | cons a as ih =>
    intro x hx
    rw [List.foldl_cons]
    have hstart : max q a ≤ as.foldl max (max q a) :=
      ih (max q a) (max q a) (List.mem_cons_self _ _)
    rcases List.mem_cons.1 hx with h | hx'
    · rw [h]; exact le_trans (le_max_left _ _) hstart
    · rcases List.mem_cons.1 hx' with h | hx''
      · rw [h]; exact le_trans (le_max_right _ _) hstart
      · exact ih (max q a) x (List.mem_cons_of_mem _ hx'')

/-- C8: on a data frame with at least one observed cell, `get_up_mnar`
returns `d_min`, the minimum over all observed cells (missing cells excluded),
together with `up_mnar = d_min + loc_up_mnar * (d_max - d_min)` where `d_max`
is the maximum over all observed cells; and on the scenario matrix with
observed values `{2, 10, 22}` and `loc_up_mnar = 0.1` it returns
`up_mnar = 2 + 0.1 * 20 = 4`. -/
theorem claim_C8_theorem :
    (∀ (df : List Row) (loc_up_mnar : ℚ), observed_vals df ≠ [] →
      ∃ d_min d_max,
        get_up_mnar df loc_up_mnar
          = some (d_min, d_min + loc_up_mnar * (d_max - d_min)) ∧
        d_min ∈ observed_vals df ∧ d_max ∈ observed_vals df ∧
        ∀ x ∈ observed_vals df, d_min ≤ x ∧ x ≤ d_max) ∧
    get_up_mnar [[some 22, none], [some 2, some 10]] (1/10) = some (2, 4) := by
  constructor
  · intro df loc h
    rcases hobs : observed_vals df with _ | ⟨q, qs⟩
    · exact absurd hobs h
    refine ⟨qs.foldl min q, qs.foldl max q, ?_, ?_, ?_, ?_⟩
    · simp [get_up_mnar, hobs]
    · exact foldl_min_mem qs q
    · exact foldl_max_mem qs q
    · exact fun x hx => ⟨foldl_min_le qs q x hx, le_foldl_max qs q x hx⟩
  · show get_up_mnar [[some 22, none], [some 2, some 10]] (1/10) = some (2, 4)
    norm_num [get_up_mnar, observed_vals, List.filterMap_cons, min_def, max_def]

/-- C8, witness: the general statement applied to the scenario matrix, whose
observed cells are `22, 2, 10`. -/
theorem claim_C8_witness :
    observed_vals [[some 22, none], [some 2, some 10]] ≠ [] ∧
    (∃ d_min d_max,
      get_up_mnar [[some 22, none], [some 2, some 10]] (1/10)
        = some (d_min, d_min + (1/10) * (d_max - d_min)) ∧
      d_min ∈ observed_vals [[some 22, none], [some 2, some 10]] ∧
      d_max ∈ observed_vals [[some 22, none], [some 2, some 10]] ∧
      ∀ x ∈ observed_vals [[some 22, none], [some 2, some 10]],
        d_min ≤ x ∧ x ≤ d_max) :=
  ⟨by decide, claim_C8_theorem.1 [[some 22, none], [some 2, some 10]] (1/10) (by decide)⟩

/-- A missing cell of a block row is filled by `_mnr_row` with the generated
value at its flat index. -/
theorem mnr_row_getD_none (vals : ℕ → ℚ) (r : Row) :
    ∀ (off j : ℕ), j < r.length → r.getD j none = none →
      (_mnr_row vals off r).getD j none = some (vals (off + j)) := by
  induction r with
  | nil => intro off j hj; simp at hj
  | cons c cs ih =>
    intro off j hj hcell
    cases j with
    | zero =>
      simp only [List.getD_cons_zero] at hcell
      subst hcell
      simp [_mnr_row]
    | succ j' =>
      have hj' : j' < cs.length := by simpa using hj
      have hcell' : cs.getD j' none = none := by simpa using hcell
      cases c with
      | none =>
        show (some (vals off) :: _mnr_row vals (off + 1) cs).getD (j' + 1) none
          = some (vals (off + (j' + 1)))
        rw [List.getD_cons_succ, ih (off + 1) j' hj' hcell']
        ring_nf
      | some v =>
        show (some v :: _mnr_row vals (off + 1) cs).getD (j' + 1) none
          = some (vals (off + (j' + 1)))
        rw [List.getD_cons_succ, ih (off + 1) j' hj' hcell']
        ring_nf

/-- Row `i` of `_mnr_rows` is `_mnr_row` applied at flat offset
`(i0 + i) * d2`. -/
theorem mnr_rows_getD (vals : ℕ → ℚ) (d2 : ℕ) (df : List Row) :
    ∀ (i0 i : ℕ), i < df.length →
      (_mnr_rows vals d2 i0 df).getD i [] = _mnr_row vals ((i0 + i) * d2) (df.getD i []) := by
  induction df with
  | nil => intro i0 i hi; simp at hi
  | cons r rest ih =>
    intro i0 i hi
    cases i with
    | zero => simp [_mnr_rows]
    | succ i' =>
      have hi' : i' < rest.length := by simpa using hi
      show (_mnr_row vals (i0 * d2) r :: _mnr_rows vals d2 (i0 + 1) rest).getD (i' + 1) []
        = _mnr_row vals ((i0 + (i' + 1)) * d2) ((r :: rest).getD (i' + 1) [])
      rw [List.getD_cons_succ, List.getD_cons_succ, ih (i0 + 1) i' hi']
      ring_nf

/-- C9: every value written by the MNAR left-censored sampler lies in
`[d_min, d_min + (up_mnar - d_min) * std_factor]`: the output of `_impute_mnr`
at a missing input cell equals `d_min + std * t` for the truncated-normal
sample `t ∈ [0, 1]` of that cell, hence lies in the stated interval whenever
`std = (up_mnar - d_min) * std_factor` is non-negative. -/
theorem claim_C9_theorem (t : ℕ → ℚ) (df : List Row)
    (std_factor d_min up_mnar : ℚ)
    (ht : ∀ k, 0 ≤ t k ∧ t k ≤ 1) (hsf : 0 ≤ std_factor)
    (hdu : d_min ≤ up_mnar) :
    ∀ i, i < df.length → ∀ j, j < (df.getD i []).length →
      (df.getD i []).getD j none = none →
      d_min ≤ (((_impute_mnr t df std_factor d_min up_mnar).getD i []).getD j none).getD 0 ∧
      (((_impute_mnr t df std_factor d_min up_mnar).getD i []).getD j none).getD 0
        ≤ d_min + (up_mnar - d_min) * std_factor := by
  intro i hi j hj hcell
  have hstd : 0 ≤ (up_mnar - d_min) * std_factor :=
    mul_nonneg (by linarith) hsf
  have hrow := mnr_rows_getD
    (fun idx => truncnorm_rvs 0 1 d_min ((up_mnar - d_min) * std_factor) (t idx))
    (df.headD []).length df 0 i hi
  have hcv := mnr_row_getD_none
    (fun idx => truncnorm_rvs 0 1 d_min ((up_mnar - d_min) * std_factor) (t idx))
    (df.getD i []) ((0 + i) * (df.headD []).length) j hj hcell
  simp only [_impute_mnr]
  rw [hrow, hcv]
  simp only [Option.getD_some, truncnorm_rvs]
  obtain ⟨h0, h1⟩ := ht ((0 + i) * (df.headD []).length + j)
  constructor
  · nlinarith
  · nlinarith

/-- C9, witness: the scenario `d_min = 2, up_mnar = 4, std_factor = 0.5`
(`std = 1`): with the underlying truncated sample `t = 1`, the single sampled
value for the missing cell is `3`, inside `[2, 2 + (4 - 2) * 0.5] = [2, 3]`. -/
theorem claim_C9_witness :
    2 ≤ (((_impute_mnr (fun _ => 1) [[none]] (1/2) 2 4).getD 0 []).getD 0 none).getD 0 ∧
    (((_impute_mnr (fun _ => 1) [[none]] (1/2) 2 4).getD 0 []).getD 0 none).getD 0
      ≤ 2 + (4 - 2) * (1/2) :=
  claim_C9_theorem (fun _ => 1) [[none]] (1/2) 2 4
    (fun _ => ⟨by norm_num, by norm_num⟩) (by norm_num) (by norm_num)
    0 (by decide) 0 (by decide) (by decide)

/-- Selecting with an empty mask selects nothing. -/
theorem mask_rows_nil_mask {α : Type} (xs : List α) : mask_rows xs [] = [] := by
  simp [mask_rows, List.zip_nil_right]

/-- Cons unfolding of boolean-mask selection. -/
theorem mask_rows_cons {α : Type} (x : α) (xs : List α) (b : Bool) (ms : List Bool) :
    mask_rows (x :: xs) (b :: ms)
      = if b then x :: mask_rows xs ms else mask_rows xs ms := by
  cases b <;> simp [mask_rows, List.zip_cons_cons, List.filterMap_cons]

/-- Mask selection yields a sublist: row identity and relative order of the
selected rows are preserved. -/
theorem mask_rows_sublist {α : Type} (xs : List α) (mask : List Bool) :
    (mask_rows xs mask).Sublist xs := by
  induction xs generalizing mask with
  | nil => simp [mask_rows]
  | cons x xs ih =>
    cases mask with
    | nil => rw [mask_rows_nil_mask]; exact List.nil_sublist _
    | cons b ms =>
      rw [mask_rows_cons]
      cases b with
      | false => simpa using List.Sublist.cons x (ih ms)
      | true => simpa using List.Sublist.cons₂ x (ih ms)

/-- The inner fold of `compute_cs` pushes one dict entry per masked row, most
recently written entry first. -/
theorem foldl_dict_insert (f : ℕ × Row → ℚ) (sub : List (ℕ × Row)) :
    ∀ d : List (ℕ × ℚ),
      sub.foldl (fun d er => dict_insert d er.1 (f er)) d
        = (sub.map (fun er => (er.1, f er))).reverse ++ d := by
  induction sub with
  | nil => intro d; simp
  | cons s ss ih =>
    intro d
    rw [List.foldl_cons, ih, List.map_cons, List.reverse_cons, List.append_assoc]
    rfl

/-- The dict built by `compute_cs` is the concatenation of the four per-class
entry lists, most recently written class first. -/
theorem compute_cs_dict (df : List Row) (cls : List MVClass) (n : ℕ) :
    compute_cs df cls n
      = (List.range df.length).map (dict_lookup
          ((cs_entries df cls n MVClass.NM).reverse ++
            ((cs_entries df cls n MVClass.MAR).reverse ++
              ((cs_entries df cls n MVClass.MNAR).reverse ++
                (cs_entries df cls n MVClass.MCAR).reverse)))) := by
  simp only [compute_cs, LIST_MV_CLASSES, List.foldl_cons, List.foldl_nil,
    foldl_dict_insert, cs_entries, List.append_nil]

/-- Appending below entries that do not hold the key defers to the older
entries. -/
theorem dict_lookup_append_none (l1 l2 : List (ℕ × ℚ)) (i : ℕ)
    (h : dict_lookup l1 i = none) :
    dict_lookup (l1 ++ l2) i = dict_lookup l2 i := by
  induction l1 with
  | nil => simp
  | cons kv l1' ih =>
    obtain ⟨k, v⟩ := kv
    simp only [dict_lookup] at h
    by_cases hik : i = k
    · simp [hik] at h
    · simp only [List.cons_append, dict_lookup, if_neg hik] at h ⊢
      exact ih h

/-- A key found among the more recent entries hides the older ones. -/
theorem dict_lookup_append_some (l1 l2 : List (ℕ × ℚ)) (i : ℕ) (v : ℚ)
    (h : dict_lookup l1 i = some v) :
    dict_lookup (l1 ++ l2) i = some v := by
  induction l1 with
  | nil => simp [dict_lookup] at h
  | cons kv l1' ih =>
    obtain ⟨k, w⟩ := kv
    simp only [dict_lookup] at h
    by_cases hik : i = k
    · simp only [List.cons_append, dict_lookup, if_pos hik]
      simpa [hik] using h
    · simp only [if_neg hik] at h
      simp only [List.cons_append, dict_lookup, if_neg hik]
      exact ih h

/-- A key that appears in no entry is not found. -/
theorem dict_lookup_eq_none (l : List (ℕ × ℚ)) (i : ℕ)
    (h : i ∉ l.map Prod.fst) : dict_lookup l i = none := by
  induction l with
  | nil => rfl
  | cons kv l' ih =>
    obtain ⟨k, v⟩ := kv
    simp only [List.map_cons, List.mem_cons] at h
    push_neg at h
    simp only [dict_lookup, if_neg h.1]
    exact ih h.2

/-- With distinct keys, lookup returns the value stored with the key. -/
theorem dict_lookup_eq_some (l : List (ℕ × ℚ)) (i : ℕ) (v : ℚ)
    (hnd : (l.map Prod.fst).Nodup) (hmem : (i, v) ∈ l) :
    dict_lookup l i = some v := by
  induction l with
  | nil => simp at hmem
  | cons kv l' ih =>
    obtain ⟨k, w⟩ := kv
    simp only [List.map_cons, List.nodup_cons] at hnd
    rcases List.mem_cons.1 hmem with h | h
    · cases h
      simp [dict_lookup]
    · have hik : i ≠ k := by
        intro he
        subst he
        exact hnd.1 (List.mem_map.2 ⟨(i, v), h, rfl⟩)
      simp only [dict_lookup, if_neg hik]
      exact ih hnd.2 h

/-- Soundness of mask selection over index-paired rows: every selected pair
carries an in-range original index whose class entry is the selected class,
together with that row. -/
theorem mem_mask_rows_sound (df : List Row) :
    ∀ (cls : List MVClass) (s : ℕ) (c : MVClass) (p : ℕ × Row),
      cls.length = df.length →
      p ∈ mask_rows ((List.range' s df.length).zip df)
          (cls.map (fun l => decide (l = c))) →
      ∃ k, k < df.length ∧ p.1 = s + k ∧ p.2 = df.getD k []
        ∧ cls.getD k MVClass.MAR = c := by
  induction df with
  | nil =>
    intro cls s c p _ hp
    simp [mask_rows] at hp
  | cons r df' ih =>
    intro cls s c p hlen hp
    cases cls with
    | nil => simp at hlen
    | cons c0 cls' =>
      have hlen' : cls'.length = df'.length := by simpa using hlen
      rw [List.length_cons, List.range'_succ, List.zip_cons_cons, List.map_cons,
        mask_rows_cons] at hp
      by_cases hc : c0 = c
      · rw [if_pos (by simp [hc])] at hp
        rcases List.mem_cons.1 hp with rfl | h
        · exact ⟨0, by simp, by simp, by simp, by simpa using hc⟩
        · obtain ⟨k, hk, h1, h2, h3⟩ := ih cls' (s + 1) c p hlen' h
          exact ⟨k + 1, by simp only [List.length_cons]; omega, by omega,
            by simpa using h2, by simpa using h3⟩
      · rw [if_neg (by simp [hc])] at hp
        obtain ⟨k, hk, h1, h2, h3⟩ := ih cls' (s + 1) c p hlen' hp
        exact ⟨k + 1, by simp only [List.length_cons]; omega, by omega,
          by simpa using h2, by simpa using h3⟩

/-- Completeness of mask selection over index-paired rows: every in-range
index whose class entry is the selected class contributes its pair. -/
theorem mem_mask_rows_complete (df : List Row) :
    ∀ (cls : List MVClass) (s : ℕ) (c : MVClass) (k : ℕ),
      cls.length = df.length → k < df.length → cls.getD k MVClass.MAR = c →
      (s + k, df.getD k []) ∈ mask_rows ((List.range' s df.length).zip df)
        (cls.map (fun l => decide (l = c))) := by
  induction df with
  | nil => intro cls s c k _ hk; simp at hk
  | cons r df' ih =>
    intro cls s c k hlen hk hck
    cases cls with
    | nil => simp at hlen
    | cons c0 cls' =>
      have hlen' : cls'.length = df'.length := by simpa using hlen
      rw [List.length_cons, List.range'_succ, List.zip_cons_cons, List.map_cons,
        mask_rows_cons]
      cases k with
      | zero =>
        have hc : c0 = c := by simpa using hck
        rw [if_pos (by simp [hc])]
        simp
      | succ k' =>
        have hk' : k' < df'.length := by simpa using hk
        have hck' : cls'.getD k' MVClass.MAR = c := by simpa using hck
        have hmem := ih cls' (s + 1) c k' hlen' hk' hck'
        have harith : s + (k' + 1) = (s + 1) + k' := by omega
        by_cases hc : c0 = c
        · rw [if_pos (by simp [hc])]
          refine List.mem_cons_of_mem _ ?_
          simpa [List.getD_cons_succ, harith] using hmem
        · rw [if_neg (by simp [hc])]
          simpa [List.getD_cons_succ, harith] using hmem

/-- The keys of one class's dict entries are distinct (they are a sublist of
`range`). -/
theorem cs_entries_keys_nodup (df : List Row) (cls : List MVClass) (n : ℕ)
    (c : MVClass) : ((cs_entries df cls n c).map Prod.fst).Nodup := by
  have h1 : (cs_entries df cls n c).map Prod.fst
      = (mask_rows ((List.range df.length).zip df)
          (cls.map (fun l => decide (l = c)))).map Prod.fst := by
    simp [cs_entries, List.map_map]
  have h2 : List.Sublist
      ((mask_rows ((List.range df.length).zip df)
        (cls.map (fun l => decide (l = c)))).map Prod.fst)
      (((List.range df.length).zip df).map Prod.fst) :=
    (mask_rows_sublist _ _).map Prod.fst
  rw [List.map_fst_zip _ _ (by simp)] at h2
  rw [h1]
  exact List.Nodup.sublist h2 (List.nodup_range _)

/-- A key present among one class's dict entries is an in-range index
classified as that class. -/
theorem cs_entries_key_class (df : List Row) (cls : List MVClass) (n : ℕ)
    (c : MVClass) (i : ℕ) (hlen : cls.length = df.length)
    (h : i ∈ (cs_entries df cls n c).map Prod.fst) :
    i < df.length ∧ cls.getD i MVClass.MAR = c := by
  obtain ⟨p, hp, hpi⟩ := List.mem_map.1 h
  obtain ⟨er, her, hper⟩ := List.mem_map.1 hp
  rw [List.range_eq_range'] at her
  obtain ⟨k, hk, h1, _, h3⟩ := mem_mask_rows_sound df cls 0 c er hlen her
  have hei : er.1 = i := by rw [← hpi, ← hper]
  have hik : i = k := by omega
  subst hik
  exact ⟨hk, h3⟩

/-- Each row contributes its own score to its own class's dict entries. -/
theorem cs_entries_mem (df : List Row) (cls : List MVClass) (n : ℕ) (i : ℕ)
    (hlen : cls.length = df.length) (hi : i < df.length) :
    (i, _compute_cs (df.getD i []) (cls.getD i MVClass.MAR) n)
      ∈ cs_entries df cls n (cls.getD i MVClass.MAR) := by
  have hmem := mem_mask_rows_complete df cls 0 (cls.getD i MVClass.MAR) i hlen hi rfl
  rw [← List.range_eq_range'] at hmem
  refine List.mem_map.2 ⟨(0 + i, df.getD i []), hmem, ?_⟩
  simp

/-- Looking up a row index in the dict of `compute_cs` returns exactly the
score of that row under that row's own class: the three other classes
contribute no entry for the index, and the row's class contributes exactly
one. -/
theorem dict_lookup_master (df : List Row) (cls : List MVClass) (n : ℕ) (i : ℕ)
    (hlen : cls.length = df.length) (hi : i < df.length) :
    dict_lookup
      ((cs_entries df cls n MVClass.NM).reverse ++
        ((cs_entries df cls n MVClass.MAR).reverse ++
          ((cs_entries df cls n MVClass.MNAR).reverse ++
            (cs_entries df cls n MVClass.MCAR).reverse))) i
      = some (_compute_cs (df.getD i []) (cls.getD i MVClass.MAR) n) := by
  have hnone : ∀ c : MVClass, cls.getD i MVClass.MAR ≠ c →
      dict_lookup (cs_entries df cls n c).reverse i = none := by
    intro c hc
    apply dict_lookup_eq_none
    intro hmem
    rw [List.map_reverse, List.mem_reverse] at hmem
    exact hc (cs_entries_key_class df cls n c i hlen hmem).2
  have hsome : dict_lookup (cs_entries df cls n (cls.getD i MVClass.MAR)).reverse i
      = some (_compute_cs (df.getD i []) (cls.getD i MVClass.MAR) n) := by
    apply dict_lookup_eq_some
    · rw [List.map_reverse]
      exact List.nodup_reverse.2 (cs_entries_keys_nodup df cls n _)
    · rw [List.mem_reverse]
      exact cs_entries_mem df cls n i hlen hi
  cases hcase : cls.getD i MVClass.MAR with
  | MCAR =>
    rw [dict_lookup_append_none _ _ _ (hnone MVClass.NM (by rw [hcase]; decide)),
      dict_lookup_append_none _ _ _ (hnone MVClass.MAR (by rw [hcase]; decide)),
      dict_lookup_append_none _ _ _ (hnone MVClass.MNAR (by rw [hcase]; decide))]
    rw [hcase] at hsome
    exact hsome
  | MNAR =>
    rw [dict_lookup_append_none _ _ _ (hnone MVClass.NM (by rw [hcase]; decide)),
      dict_lookup_append_none _ _ _ (hnone MVClass.MAR (by rw [hcase]; decide))]
    rw [hcase] at hsome
    exact dict_lookup_append_some _ _ _ _ hsome
  | MAR =>
    rw [dict_lookup_append_none _ _ _ (hnone MVClass.NM (by rw [hcase]; decide))]
    rw [hcase] at hsome
    exact dict_lookup_append_some _ _ _ _ hsome
  | NM =>
    rw [hcase] at hsome
    exact dict_lookup_append_some _ _ _ _ hsome

/-- Reordering invariance of `compute_cs`: although the scores are computed by
regrouping the rows by class, the returned list is, position by position, the
score of the corresponding input row under that row's class. -/
theorem compute_cs_eq_direct (df : List Row) (cls : List MVClass) (n : ℕ)
    (hlen : cls.length = df.length) :
    compute_cs df cls n
      = (df.zip cls).map (fun p => some (_compute_cs p.1 p.2 n)) := by
  rw [compute_cs_dict]
  apply List.ext_getElem
  · simp [hlen]
  · intro i h1 h2
    simp only [List.getElem_map, List.getElem_range, List.getElem_zip]
    have hi : i < df.length := by simpa using h1
    rw [dict_lookup_master df cls n i hlen hi]
    have e1 : df.getD i [] = df[i] := List.getD_eq_getElem _ _ hi
    have e2 : cls.getD i MVClass.MAR = cls[i] :=
      List.getD_eq_getElem _ _ (by omega)
    rw [e1, e2]

/-- C10: for every group, `compute_cs` returns exactly one confidence score
per feature row, and the i-th returned score is the score of the i-th row of
the group's input in its original order (the per-class regrouping through the
dict does not permute or drop scores); in particular every dict read succeeds. -/
theorem claim_C10_theorem (df : List Row) (cls : List MVClass) (n : ℕ)
    (hlen : cls.length = df.length) :
    (compute_cs df cls n).length = df.length ∧
    compute_cs df cls n
      = (df.zip cls).map (fun p => some (_compute_cs p.1 p.2 n)) := by
  have h := compute_cs_eq_direct df cls n hlen
  constructor
  · rw [h]
    simp [hlen]
  · exact h

/-- C10, witness: a 3-row group of 2 samples whose rows classify NM, MNAR and
MCAR; the scores come back aligned with the input rows. -/
theorem claim_C10_witness :
    (classify_of_mvs [[some 1, some 10], [none, some 1], [none, some 10]] 5 2).length
      = ([[some 1, some 10], [none, some 1], [none, some 10]] : List Row).length ∧
    ((compute_cs [[some 1, some 10], [none, some 1], [none, some 10]]
        (classify_of_mvs [[some 1, some 10], [none, some 1], [none, some 10]] 5 2) 2).length
      = ([[some 1, some 10], [none, some 1], [none, some 10]] : List Row).length ∧
    compute_cs [[some 1, some 10], [none, some 1], [none, some 10]]
        (classify_of_mvs [[some 1, some 10], [none, some 1], [none, some 10]] 5 2) 2
      = (([[some 1, some 10], [none, some 1], [none, some 10]] : List Row).zip
          (classify_of_mvs [[some 1, some 10], [none, some 1], [none, some 10]] 5 2)).map
          (fun p => some (_compute_cs p.1 p.2 2))) :=
  ⟨by decide,
    claim_C10_theorem [[some 1, some 10], [none, some 1], [none, some 10]]
      (classify_of_mvs [[some 1, some 10], [none, some 1], [none, some 10]] 5 2) 2
      (by decide)⟩

/-- The predicate `preserves_observed` is reflexive. -/
theorem preserves_observed_refl (r : Row) : preserves_observed r r :=
  ⟨rfl, fun _ _ _ => rfl⟩

/-- The predicate `preserves_observed` is transitive. -/
theorem preserves_observed_trans {r1 r2 r3 : Row}
    (h12 : preserves_observed r1 r2) (h23 : preserves_observed r2 r3) :
    preserves_observed r1 r3 := by
  refine ⟨h23.1.trans h12.1, fun j hj hs => ?_⟩
  have h2 := h12.2 j hj hs
  have hj2 : j < r2.length := by rw [h12.1]; exact hj
  have hs2 : (r2.getD j none).isSome = true := by rw [h2]; exact hs
  rw [h23.2 j hj2 hs2, h2]

/-- Writing back into no rows yields no rows. -/
theorem write_back_nil (mask : List Bool) (new : List Row) :
    write_back [] mask new = [] := by
  cases mask with
  | nil => rfl
  | cons b ms => cases b <;> cases new <;> rfl

/-- Writing back with an empty mask changes nothing. -/
theorem write_back_nil_mask (rows : List Row) (new : List Row) :
    write_back rows [] new = rows := by
  cases rows <;> rfl

/-- Cons unfolding of `write_back` at an unselected row. -/
theorem write_back_cons_false (r : Row) (rs : List Row) (ms : List Bool)
    (new : List Row) :
    write_back (r :: rs) (false :: ms) new = r :: write_back rs ms new := by
  simp [write_back]

/-- Cons unfolding of `write_back` at a selected row. -/
theorem write_back_cons_true_cons (r : Row) (rs : List Row) (ms : List Bool)
    (nr : Row) (ns : List Row) :
    write_back (r :: rs) (true :: ms) (nr :: ns) = nr :: write_back rs ms ns := by
  simp [write_back]

/-- Writing back never changes the number of rows. -/
theorem write_back_length (rows : List Row) :
    ∀ (mask : List Bool) (new : List Row),
      (write_back rows mask new).length = rows.length := by
  induction rows with
  | nil => intro mask new; rw [write_back_nil]
  | cons r rs ih =>
    intro mask new
    cases mask with
    | nil => rw [write_back_nil_mask]
    | cons b ms =>
      cases b with
      | false => rw [write_back_cons_false]; simp [ih]
      | true =>
        cases new with
        | nil => simp [write_back, ih]
        | cons nr ns => rw [write_back_cons_true_cons]; simp [ih]

/-- Writing the selected rows back unchanged reproduces the input: the NM and
MAR iterations of `impute` are global no-ops. -/
theorem write_back_self (rows : List Row) :
    ∀ mask : List Bool, write_back rows mask (mask_rows rows mask) = rows := by
  induction rows with
  | nil => intro mask; rw [write_back_nil]
  | cons r rs ih =>
    intro mask
    cases mask with
    | nil => rw [write_back_nil_mask]
    | cons b ms =>
      rw [mask_rows_cons]
      cases b with
      | false => simp [write_back_cons_false, ih]
      | true => simp [write_back_cons_true_cons, ih]

/-- Positional description of `write_back`: an unselected row is unchanged,
and a selected row is replaced by the written block's row at the position its
own row occupies inside the selected sub-block. -/
theorem write_back_getD (rows : List Row) :
    ∀ (mask : List Bool) (new : List Row) (i : ℕ),
      new.length = (mask_rows rows mask).length → i < rows.length →
      (mask.getD i false = false →
        (write_back rows mask new).getD i [] = rows.getD i []) ∧
      (mask.getD i false = true →
        ∃ k, k < new.length ∧ (mask_rows rows mask).getD k [] = rows.getD i []
          ∧ (write_back rows mask new).getD i [] = new.getD k []) := by
  induction rows with
  | nil => intro mask new i _ hi; simp at hi
  | cons r rs ih =>
    intro mask new i hlen hi
    cases mask with
    | nil =>
      constructor
      · intro _; rw [write_back_nil_mask]
      · intro h; simp at h
    | cons b ms =>
      cases b with
      | false =>
        have hmr : mask_rows (r :: rs) (false :: ms) = mask_rows rs ms := by
          rw [mask_rows_cons]; simp
        rw [hmr] at hlen
        rw [write_back_cons_false]
        cases i with
        | zero =>
          constructor
          · intro _; simp
          · intro h; simp at h
        | succ i' =>
          have hi' : i' < rs.length := by simpa using hi
          have hrec := ih ms new i' hlen hi'
          constructor
          · intro h
            have h' : ms.getD i' false = false := by simpa using h
            simpa using hrec.1 h'
          · intro h
            have h' : ms.getD i' false = true := by simpa using h
            obtain ⟨k, hk, h1, h2⟩ := hrec.2 h'
            exact ⟨k, hk, by rw [hmr]; simpa using h1, by simpa using h2⟩
      | true =>
        have hmr : mask_rows (r :: rs) (true :: ms) = r :: mask_rows rs ms := by
          rw [mask_rows_cons]; simp
        rw [hmr] at hlen
        cases new with
        | nil => simp at hlen
        | cons nr ns =>
          rw [write_back_cons_true_cons]
          have hlen' : ns.length = (mask_rows rs ms).length := by simpa using hlen
          cases i with
          | zero =>
            constructor
            · intro h; simp at h
            · intro _
              exact ⟨0, by simp, by rw [hmr]; simp, by simp⟩
          | succ i' =>
            have hi' : i' < rs.length := by simpa using hi
            have hrec := ih ms ns i' hlen' hi'
            constructor
            · intro h
              have h' : ms.getD i' false = false := by simpa using h
              simpa using hrec.1 h'
            · intro h
              have h' : ms.getD i' false = true := by simpa using h
              obtain ⟨k, hk, h1, h2⟩ := hrec.2 h'
              refine ⟨k + 1, by simp only [List.length_cons]; omega, ?_, ?_⟩
              · rw [hmr]; simpa using h1
              · simpa using h2

/-- The MNAR fill preserves the row length. -/
theorem mnr_row_length (vals : ℕ → ℚ) (r : Row) :
    ∀ off, (_mnr_row vals off r).length = r.length := by
  induction r with
  | nil => intro off; rfl
  | cons c cs ih =>
    intro off
    cases c <;> simp [_mnr_row, ih]

/-- The MNAR fill leaves observed cells unchanged. -/
theorem mnr_row_getD_some (vals : ℕ → ℚ) (r : Row) :
    ∀ off j, j < r.length → (r.getD j none).isSome = true →
      (_mnr_row vals off r).getD j none = r.getD j none := by
  induction r with
  | nil => intro off j hj; simp at hj
  | cons c cs ih =>
    intro off j hj hs
    cases j with
    | zero =>
      cases c with
      | none => simp at hs
      | some v => simp [_mnr_row]
    | succ j' =>
      have hj' : j' < cs.length := by simpa using hj
      have hs' : (cs.getD j' none).isSome = true := by simpa using hs
      cases c <;> simp only [_mnr_row, List.getD_cons_succ] <;>
        exact ih (off + 1) j' hj' hs'

/-- After the MNAR fill, every cell of the block holds a value. -/
theorem mnr_row_isSome (vals : ℕ → ℚ) (r : Row) :
    ∀ off j, j < r.length → ((_mnr_row vals off r).getD j none).isSome = true := by
  induction r with
  | nil => intro off j hj; simp at hj
  | cons c cs ih =>
    intro off j hj
    cases j with
    | zero => cases c <;> simp [_mnr_row]
    | succ j' =>
      have hj' : j' < cs.length := by simpa using hj
      cases c <;> simpa [_mnr_row] using ih (off + 1) j' hj'

/-- The MNAR fill preserves the number of rows. -/
theorem mnr_rows_length (vals : ℕ → ℚ) (d2 : ℕ) (df : List Row) :
    ∀ i0, (_mnr_rows vals d2 i0 df).length = df.length := by
  induction df with
  | nil => intro i0; rfl
  | cons r rest ih => intro i0; simp [_mnr_rows, ih]

/-- The KNN fill preserves the row length. -/
theorem mcar_row_length (g : ℕ → ℕ → ℚ) (i : ℕ) (r : Row) :
    ∀ j0, (_mcar_row g i j0 r).length = r.length := by
  induction r with
  | nil => intro j0; rfl
  | cons c cs ih =>
    intro j0
    cases c <;> simp [_mcar_row, ih]

/-- The KNN fill leaves observed cells unchanged. -/
theorem mcar_row_getD_some (g : ℕ → ℕ → ℚ) (i : ℕ) (r : Row) :
    ∀ j0 j, j < r.length → (r.getD j none).isSome = true →
      (_mcar_row g i j0 r).getD j none = r.getD j none := by
  induction r with
  | nil => intro j0 j hj; simp at hj
  | cons c cs ih =>
    intro j0 j hj hs
    cases j with
    | zero =>
      cases c with
      | none => simp at hs
      | some v => simp [_mcar_row]
    | succ j' =>
      have hj' : j' < cs.length := by simpa using hj
      have hs' : (cs.getD j' none).isSome = true := by simpa using hs
      cases c <;> simp only [_mcar_row, List.getD_cons_succ] <;>
        exact ih (j0 + 1) j' hj' hs'

/-- The KNN fill preserves the number of rows. -/
theorem mcar_rows_length (g : ℕ → ℕ → ℚ) (df : List Row) :
    ∀ i0, (_mcar_rows g i0 df).length = df.length := by
  induction df with
  | nil => intro i0; rfl
  | cons r rest ih => intro i0; simp [_mcar_rows, ih]

/-- Row `i` of the KNN fill is `_mcar_row` at row position `i0 + i`. -/
theorem mcar_rows_getD (g : ℕ → ℕ → ℚ) (df : List Row) :
    ∀ i0 i, i < df.length →
      (_mcar_rows g i0 df).getD i [] = _mcar_row g (i0 + i) 0 (df.getD i []) := by
  induction df with
  | nil => intro i0 i hi; simp at hi
  | cons r rest ih =>
    intro i0 i hi
    cases i with
    | zero => simp [_mcar_rows]
    | succ i' =>
      have hi' : i' < rest.length := by simpa using hi
      show (_mcar_row g i0 0 r :: _mcar_rows g (i0 + 1) rest).getD (i' + 1) []
        = _mcar_row g (i0 + (i' + 1)) 0 ((r :: rest).getD (i' + 1) [])
      rw [List.getD_cons_succ, List.getD_cons_succ, ih (i0 + 1) i' hi']
      ring_nf

/-- The class dispatch `_impute` preserves the number of rows of its block. -/
theorem _impute_length (t : ℕ → ℚ) (g : ℕ → ℕ → ℚ) (block : List Row)
    (c : MVClass) (d_min up_mnar std_factor : ℚ) (n_neighbors : ℕ) :
    (_impute t g block c d_min up_mnar std_factor n_neighbors).length
      = block.length := by
  cases c <;>
    simp [_impute, _impute_mcar, _impute_mnr, mcar_rows_length, mnr_rows_length]

/-- Every imputation method preserves the observed cells and the column count
of each row of its block. -/
theorem _impute_preserves (t : ℕ → ℚ) (g : ℕ → ℕ → ℚ) (block : List Row)
    (c : MVClass) (d_min up_mnar std_factor : ℚ) (n_neighbors : ℕ) :
    ∀ k, k < block.length →
      preserves_observed (block.getD k [])
        ((_impute t g block c d_min up_mnar std_factor n_neighbors).getD k []) := by
  intro k hk
  cases c with
  | NM => exact preserves_observed_refl _
  | MAR => exact preserves_observed_refl _
  | MCAR =>
    show preserves_observed (block.getD k []) ((_impute_mcar g block n_neighbors).getD k [])
    rw [_impute_mcar, mcar_rows_getD g block 0 k hk]
    exact ⟨mcar_row_length g (0 + k) (block.getD k []) 0,
      fun j hj hs => mcar_row_getD_some g (0 + k) (block.getD k []) 0 j hj hs⟩
  | MNAR =>
    show preserves_observed (block.getD k [])
      ((_impute_mnr t block std_factor d_min up_mnar).getD k [])
    rw [_impute_mnr]
    rw [mnr_rows_getD _ (block.headD []).length block 0 k hk]
    exact ⟨mnr_row_length _ (block.getD k []) _,
      fun j hj hs => mnr_row_getD_some _ (block.getD k []) _ j hj hs⟩

/-- Entry `i` of one iteration's row mask, in terms of the row's class and
score. -/
theorem impute_mask_getD (cls : List MVClass) :
    ∀ (cs : List ℚ) (min_cs : ℚ) (c : MVClass) (i : ℕ),
      i < cls.length → i < cs.length →
      (impute_mask cls cs min_cs c).getD i false
        = (decide (cls.getD i MVClass.MAR = c) && decide (min_cs ≤ cs.getD i 0)) := by
  induction cls with
  | nil => intro cs min_cs c i hi; simp at hi
  | cons c0 cls' ih =>
    intro cs min_cs c i hi1 hi2
    cases cs with
    | nil => simp at hi2
    | cons q cs' =>
      cases i with
      | zero => simp [impute_mask, List.zip_cons_cons]
      | succ i' =>
        have h1 : i' < cls'.length := by simpa using hi1
        have h2 : i' < cs'.length := by simpa using hi2
        show ((impute_mask (c0 :: cls') (q :: cs') min_cs c)).getD (i' + 1) false = _
        have : impute_mask (c0 :: cls') (q :: cs') min_cs c
            = (decide (c0 = c) && decide (min_cs ≤ q)) :: impute_mask cls' cs' min_cs c := by
          simp [impute_mask, List.zip_cons_cons]
        rw [this, List.getD_cons_succ, ih cs' min_cs c i' h1 h2]
        simp

/-- One impute iteration preserves the number of rows. -/
theorem impute_step_length (t : ℕ → ℚ) (g : ℕ → ℕ → ℚ) (cls : List MVClass)
    (cs : List ℚ) (min_cs d_min up_mnar std_factor : ℚ) (n_neighbors : ℕ)
    (df : List Row) (c : MVClass) :
    (impute_step t g cls cs min_cs d_min up_mnar std_factor n_neighbors df c).length
      = df.length :=
  write_back_length df _ _

/-- The NM iteration of `impute` is a global no-op. -/
theorem impute_step_id_nm (t : ℕ → ℚ) (g : ℕ → ℕ → ℚ) (cls : List MVClass)
    (cs : List ℚ) (min_cs d_min up_mnar std_factor : ℚ) (n_neighbors : ℕ)
    (df : List Row) :
    impute_step t g cls cs min_cs d_min up_mnar std_factor n_neighbors df
      MVClass.NM = df :=
  write_back_self df _

/-- The MAR iteration of `impute` is a global no-op. -/
theorem impute_step_id_mar (t : ℕ → ℚ) (g : ℕ → ℕ → ℚ) (cls : List MVClass)
    (cs : List ℚ) (min_cs d_min up_mnar std_factor : ℚ) (n_neighbors : ℕ)
    (df : List Row) :
    impute_step t g cls cs min_cs d_min up_mnar std_factor n_neighbors df
      MVClass.MAR = df :=
  write_back_self df _

/-- A row not selected by an iteration's mask is unchanged by that
iteration. -/
theorem impute_step_unchanged (t : ℕ → ℚ) (g : ℕ → ℕ → ℚ) (cls : List MVClass)
    (cs : List ℚ) (min_cs d_min up_mnar std_factor : ℚ) (n_neighbors : ℕ)
    (df : List Row) (c : MVClass) (i : ℕ) (hi : i < df.length)
    (hmask : (impute_mask cls cs min_cs c).getD i false = false) :
    (impute_step t g cls cs min_cs d_min up_mnar std_factor n_neighbors df c).getD i []
      = df.getD i [] :=
  (write_back_getD df (impute_mask cls cs min_cs c) _ i
    (_impute_length t g _ c d_min up_mnar std_factor n_neighbors) hi).1 hmask

/-- Every iteration of `impute` preserves the observed cells and the column
count of every row. -/
theorem impute_step_preserves (t : ℕ → ℚ) (g : ℕ → ℕ → ℚ) (cls : List MVClass)
    (cs : List ℚ) (min_cs d_min up_mnar std_factor : ℚ) (n_neighbors : ℕ)
    (df : List Row) (c : MVClass) (i : ℕ) (hi : i < df.length) :
    preserves_observed (df.getD i [])
      ((impute_step t g cls cs min_cs d_min up_mnar std_factor n_neighbors df c).getD i []) := by
  have hlen : (_impute t g (class_block df cls cs min_cs c) c d_min up_mnar
      std_factor n_neighbors).length = (mask_rows df (impute_mask cls cs min_cs c)).length :=
    _impute_length t g _ c d_min up_mnar std_factor n_neighbors
  cases hmask : (impute_mask cls cs min_cs c).getD i false with
  | false =>
    rw [impute_step_unchanged t g cls cs min_cs d_min up_mnar std_factor
      n_neighbors df c i hi hmask]
    exact preserves_observed_refl _
  | true =>
    obtain ⟨k, hk, h1, h2⟩ :=
      (write_back_getD df (impute_mask cls cs min_cs c) _ i hlen hi).2 hmask
    have hk' : k < (class_block df cls cs min_cs c).length := by
      rw [show (class_block df cls cs min_cs c).length
        = (mask_rows df (impute_mask cls cs min_cs c)).length from rfl, ← hlen]
      exact hk
    have hpres := _impute_preserves t g (class_block df cls cs min_cs c) c
      d_min up_mnar std_factor n_neighbors k hk'
    rw [show (class_block df cls cs min_cs c).getD k []
      = (mask_rows df (impute_mask cls cs min_cs c)).getD k [] from rfl, h1] at hpres
    show preserves_observed (df.getD i [])
      ((write_back df (impute_mask cls cs min_cs c) _).getD i [])
    rw [h2]
    exact hpres

/-- Unfolding of the four-class loop of `impute` into its iterations, in
`LIST_MV_CLASSES` order; the block handed to the MCAR imputer is the class
block of the original group matrix. -/
theorem impute_unfold (t : ℕ → ℚ) (g : ℕ → ℕ → ℚ) (df_group : List Row)
    (mv_classes : List MVClass) (list_cs : List ℚ)
    (min_cs d_min up_mnar : ℚ) (n_neighbors : ℕ) (std_factor : ℚ) :
    impute t g df_group mv_classes list_cs min_cs d_min up_mnar n_neighbors std_factor
      = impute_step t g mv_classes list_cs min_cs d_min up_mnar std_factor n_neighbors
          (impute_step t g mv_classes list_cs min_cs d_min up_mnar std_factor n_neighbors
            (impute_step t g mv_classes list_cs min_cs d_min up_mnar std_factor n_neighbors
              (write_back df_group (impute_mask mv_classes list_cs min_cs MVClass.MCAR)
                (_impute_mcar g (class_block df_group mv_classes list_cs min_cs MVClass.MCAR)
                  n_neighbors))
              MVClass.MNAR)
            MVClass.MAR)
          MVClass.NM := rfl

/-- The group-wise imputation preserves the number of rows. -/
theorem impute_length (t : ℕ → ℚ) (g : ℕ → ℕ → ℚ) (df : List Row)
    (cls : List MVClass) (cs : List ℚ) (min_cs d_min up_mnar : ℚ)
    (n_neighbors : ℕ) (std_factor : ℚ) :
    (impute t g df cls cs min_cs d_min up_mnar n_neighbors std_factor).length
      = df.length := by
  rw [impute_unfold]
  rw [impute_step_length, impute_step_length, impute_step_length]
  exact write_back_length df _ _

/-- The group-wise imputation preserves the observed cells and the column
count of every row, whatever the classes and scores. -/
theorem impute_preserves (t : ℕ → ℚ) (g : ℕ → ℕ → ℚ) (df : List Row)
    (cls : List MVClass) (cs : List ℚ) (min_cs d_min up_mnar : ℚ)
    (n_neighbors : ℕ) (std_factor : ℚ) (i : ℕ) (hi : i < df.length) :
    preserves_observed (df.getD i [])
      ((impute t g df cls cs min_cs d_min up_mnar n_neighbors std_factor).getD i []) := by
  have e1 : impute t g df cls cs min_cs d_min up_mnar n_neighbors std_factor
      = impute_step t g cls cs min_cs d_min up_mnar std_factor n_neighbors
          (impute_step t g cls cs min_cs d_min up_mnar std_factor n_neighbors
            (impute_step t g cls cs min_cs d_min up_mnar std_factor n_neighbors
              (impute_step t g cls cs min_cs d_min up_mnar std_factor n_neighbors
                df MVClass.MCAR) MVClass.MNAR) MVClass.MAR) MVClass.NM := rfl
  rw [e1]
  set df1 := impute_step t g cls cs min_cs d_min up_mnar std_factor n_neighbors
    df MVClass.MCAR with hdf1
  set df2 := impute_step t g cls cs min_cs d_min up_mnar std_factor n_neighbors
    df1 MVClass.MNAR with hdf2
  set df3 := impute_step t g cls cs min_cs d_min up_mnar std_factor n_neighbors
    df2 MVClass.MAR with hdf3
  have l1 : df1.length = df.length := impute_step_length _ _ _ _ _ _ _ _ _ _ _
  have l2 : df2.length = df.length := by
    rw [hdf2, impute_step_length, l1]
  have l3 : df3.length = df.length := by
    rw [hdf3, impute_step_length, l2]
  have p1 : preserves_observed (df.getD i []) (df1.getD i []) :=
    impute_step_preserves t g cls cs min_cs d_min up_mnar std_factor n_neighbors
      df MVClass.MCAR i hi
  have p2 : preserves_observed (df1.getD i []) (df2.getD i []) :=
    impute_step_preserves t g cls cs min_cs d_min up_mnar std_factor n_neighbors
      df1 MVClass.MNAR i (by rw [l1]; exact hi)
  have p3 : preserves_observed (df2.getD i []) (df3.getD i []) :=
    impute_step_preserves t g cls cs min_cs d_min up_mnar std_factor n_neighbors
      df2 MVClass.MAR i (by rw [l2]; exact hi)
  have p4 : preserves_observed (df3.getD i [])
      ((impute_step t g cls cs min_cs d_min up_mnar std_factor n_neighbors
        df3 MVClass.NM).getD i []) :=
    impute_step_preserves t g cls cs min_cs d_min up_mnar std_factor n_neighbors
      df3 MVClass.NM i (by rw [l3]; exact hi)
  exact preserves_observed_trans p1
    (preserves_observed_trans p2 (preserves_observed_trans p3 p4))

/-- A row whose class is neither MCAR nor MNAR, or whose score is below
`min_cs`, is returned by `impute` completely unchanged. -/
theorem impute_unchanged (t : ℕ → ℚ) (g : ℕ → ℕ → ℚ) (df : List Row)
    (cls : List MVClass) (cs : List ℚ) (min_cs d_min up_mnar : ℚ)
    (n_neighbors : ℕ) (std_factor : ℚ) (i : ℕ)
    (h1 : cls.length = df.length) (h2 : cs.length = df.length)
    (hi : i < df.length)
    (hcond : (cls.getD i MVClass.MAR ≠ MVClass.MCAR ∧
        cls.getD i MVClass.MAR ≠ MVClass.MNAR) ∨ cs.getD i 0 < min_cs) :
    (impute t g df cls cs min_cs d_min up_mnar n_neighbors std_factor).getD i []
      = df.getD i [] := by
  have hmask : ∀ c : MVClass, cls.getD i MVClass.MAR ≠ c ∨ cs.getD i 0 < min_cs →
      (impute_mask cls cs min_cs c).getD i false = false := by
    intro c hc
    rw [impute_mask_getD cls cs min_cs c i (by omega) (by omega)]
    rcases hc with hc | hc
    · rw [decide_eq_false hc, Bool.false_and]
    · rw [decide_eq_false (not_le.2 hc), Bool.and_false]
  have hmcar : (impute_mask cls cs min_cs MVClass.MCAR).getD i false = false := by
    apply hmask
    rcases hcond with ⟨hA, _⟩ | hB
    · exact Or.inl hA
    · exact Or.inr hB
  have hmnar : (impute_mask cls cs min_cs MVClass.MNAR).getD i false = false := by
    apply hmask
    rcases hcond with ⟨_, hA⟩ | hB
    · exact Or.inl hA
    · exact Or.inr hB
  have e1 : impute t g df cls cs min_cs d_min up_mnar n_neighbors std_factor
      = impute_step t g cls cs min_cs d_min up_mnar std_factor n_neighbors
          (impute_step t g cls cs min_cs d_min up_mnar std_factor n_neighbors
            (impute_step t g cls cs min_cs d_min up_mnar std_factor n_neighbors
              (impute_step t g cls cs min_cs d_min up_mnar std_factor n_neighbors
                df MVClass.MCAR) MVClass.MNAR) MVClass.MAR) MVClass.NM := rfl
  rw [e1]
  set df1 := impute_step t g cls cs min_cs d_min up_mnar std_factor n_neighbors
    df MVClass.MCAR with hdf1
  have l1 : df1.length = df.length := impute_step_length _ _ _ _ _ _ _ _ _ _ _
  have u1 : df1.getD i [] = df.getD i [] :=
    impute_step_unchanged t g cls cs min_cs d_min up_mnar std_factor n_neighbors
      df MVClass.MCAR i hi hmcar
  rw [impute_step_id_nm, impute_step_id_mar]
  rw [impute_step_unchanged t g cls cs min_cs d_min up_mnar std_factor n_neighbors
    df1 MVClass.MNAR i (by rw [l1]; exact hi) hmnar]
  exact u1

/-- C4: the group-wise `impute` writes a value only into cells that were
missing in the input and whose row has class MCAR or MNAR with confidence
score at least `min_cs`: (1) every observed cell of every row is returned
unchanged (and no row changes its column count); (2) every row whose class is
neither MCAR nor MNAR, or whose score is below `min_cs`, is returned entirely
unchanged — in particular its missing cells remain missing. -/
theorem claim_C4_theorem (t : ℕ → ℚ) (g : ℕ → ℕ → ℚ) (df : List Row)
    (cls : List MVClass) (cs : List ℚ) (min_cs d_min up_mnar : ℚ)
    (n_neighbors : ℕ) (std_factor : ℚ)
    (h1 : cls.length = df.length) (h2 : cs.length = df.length) :
    ∀ i, i < df.length →
      preserves_observed (df.getD i [])
        ((impute t g df cls cs min_cs d_min up_mnar n_neighbors std_factor).getD i []) ∧
      (((cls.getD i MVClass.MAR ≠ MVClass.MCAR ∧
          cls.getD i MVClass.MAR ≠ MVClass.MNAR) ∨ cs.getD i 0 < min_cs) →
        (impute t g df cls cs min_cs d_min up_mnar n_neighbors std_factor).getD i []
          = df.getD i []) :=
  fun i hi =>
    ⟨impute_preserves t g df cls cs min_cs d_min up_mnar n_neighbors std_factor i hi,
      fun hcond => impute_unchanged t g df cls cs min_cs d_min up_mnar n_neighbors
        std_factor i h1 h2 hi hcond⟩

/-- C4, witness: a 3-row group with classes MNAR, MAR, NM and scores 1, 0, 1;
threshold 1: observed cells everywhere unchanged, and the MAR and NM rows
returned identically. -/
theorem claim_C4_witness :
    (([MVClass.MNAR, MVClass.MAR, MVClass.NM] : List MVClass).length
      = ([[some 1, none], [none, some 2], [some 3, some 4]] : List Row).length) ∧
    (([1, 0, 1] : List ℚ).length
      = ([[some 1, none], [none, some 2], [some 3, some 4]] : List Row).length) ∧
    ∀ i, i < ([[some 1, none], [none, some 2], [some 3, some 4]] : List Row).length →
      preserves_observed (([[some 1, none], [none, some 2], [some 3, some 4]] : List Row).getD i [])
        ((impute (fun _ => 1) (fun _ _ => 7) [[some 1, none], [none, some 2], [some 3, some 4]]
          [MVClass.MNAR, MVClass.MAR, MVClass.NM] [1, 0, 1] 1 2 4 6 1).getD i []) ∧
      ((((([MVClass.MNAR, MVClass.MAR, MVClass.NM] : List MVClass).getD i MVClass.MAR
            ≠ MVClass.MCAR) ∧
          (([MVClass.MNAR, MVClass.MAR, MVClass.NM] : List MVClass).getD i MVClass.MAR
            ≠ MVClass.MNAR)) ∨ ([1, 0, 1] : List ℚ).getD i 0 < 1) →
        (impute (fun _ => 1) (fun _ _ => 7) [[some 1, none], [none, some 2], [some 3, some 4]]
          [MVClass.MNAR, MVClass.MAR, MVClass.NM] [1, 0, 1] 1 2 4 6 1).getD i []
          = ([[some 1, none], [none, some 2], [some 3, some 4]] : List Row).getD i []) :=
  ⟨by decide, by decide,
    claim_C4_theorem (fun _ => 1) (fun _ _ => 7)
      [[some 1, none], [none, some 2], [some 3, some 4]]
      [MVClass.MNAR, MVClass.MAR, MVClass.NM] [1, 0, 1] 1 2 4 6 1
      (by decide) (by decide)⟩

/-- The number of selected rows is the number of `True` entries of the mask. -/
theorem mask_rows_length {α : Type} (xs : List α) :
    ∀ mask : List Bool, mask.length = xs.length →
      (mask_rows xs mask).length = mask.countP (fun b => b) := by
  induction xs with
  | nil =>
    intro mask h
    rw [List.length_nil] at h
    rw [List.length_eq_zero.1 h]
    rfl
  | cons x xs ih =>
    intro mask h
    cases mask with
    | nil => simp at h
    | cons b ms =>
      have h' : ms.length = xs.length := by simpa using h
      rw [mask_rows_cons]
      cases b with
      | false => simp [List.countP_cons, ih ms h']
      | true => simp [List.countP_cons, ih ms h']

/-- C5, counterexample: in the group `[[20, 20], [1, 20]]` with `up_mnar = 5`
the two rows classify MCAR and NM, both with score 1; with `min_cs = 1` the
sub-matrix handed to the KNN imputer (`df_group[mask]` for the MCAR
iteration) is only the MCAR row, not the entire group sub-matrix, so neighbor
relationships cannot use all feature rows of the group. -/
theorem claim_C5_counterexample :
    classify_of_mvs [[some 20, some 20], [some 1, some 20]] 5 2
      = [MVClass.MCAR, MVClass.NM] ∧
    compute_cs [[some 20, some 20], [some 1, some 20]]
      [MVClass.MCAR, MVClass.NM] 2 = [some 1, some 1] ∧
    class_block [[some 20, some 20], [some 1, some 20]]
        [MVClass.MCAR, MVClass.NM] [1, 1] 1 MVClass.MCAR
      = [[some 20, some 20]] ∧
    class_block [[some 20, some 20], [some 1, some 20]]
        [MVClass.MCAR, MVClass.NM] [1, 1] 1 MVClass.MCAR
      ≠ [[some 20, some 20], [some 1, some 20]] := by
  refine ⟨by decide, ?_, by decide, by decide⟩
  rw [compute_cs_eq_direct _ _ _ (by decide)]
  norm_num [List.zip_cons_cons, _compute_cs, countNan, round2, roundHalfToEven]

/-- C5, amended: inside `impute`, the KNN (MCAR) imputer is applied to the
sub-matrix of exactly those rows classified MCAR with score at least
`min_cs` — not to the entire group sub-matrix; that sub-block is a sublist of
the group (row identity and order preserved) whose row count is the number of
qualifying rows, and imputation preserves the group's row count and each
row's column count. -/
theorem claim_C5_theorem (t : ℕ → ℚ) (g : ℕ → ℕ → ℚ) (df : List Row)
    (cls : List MVClass) (cs : List ℚ) (min_cs d_min up_mnar : ℚ)
    (n_neighbors : ℕ) (std_factor : ℚ)
    (h1 : cls.length = df.length) (h2 : cs.length = df.length) :
    (impute t g df cls cs min_cs d_min up_mnar n_neighbors std_factor
      = impute_step t g cls cs min_cs d_min up_mnar std_factor n_neighbors
          (impute_step t g cls cs min_cs d_min up_mnar std_factor n_neighbors
            (impute_step t g cls cs min_cs d_min up_mnar std_factor n_neighbors
              (write_back df (impute_mask cls cs min_cs MVClass.MCAR)
                (_impute_mcar g (class_block df cls cs min_cs MVClass.MCAR) n_neighbors))
              MVClass.MNAR)
            MVClass.MAR)
          MVClass.NM) ∧
    List.Sublist (class_block df cls cs min_cs MVClass.MCAR) df ∧
    (class_block df cls cs min_cs MVClass.MCAR).length
      = (cls.zip cs).countP
          (fun p => decide (p.1 = MVClass.MCAR) && decide (min_cs ≤ p.2)) ∧
    (impute t g df cls cs min_cs d_min up_mnar n_neighbors std_factor).length
      = df.length ∧
    ∀ i, i < df.length →
      ((impute t g df cls cs min_cs d_min up_mnar n_neighbors std_factor).getD i []).length
        = ((df.getD i []) : Row).length := by
  refine ⟨impute_unfold t g df cls cs min_cs d_min up_mnar n_neighbors std_factor,
    mask_rows_sublist df _, ?_, impute_length t g df cls cs min_cs d_min up_mnar
      n_neighbors std_factor, fun i hi =>
      (impute_preserves t g df cls cs min_cs d_min up_mnar n_neighbors std_factor i hi).1⟩
  rw [show class_block df cls cs min_cs MVClass.MCAR
    = mask_rows df (impute_mask cls cs min_cs MVClass.MCAR) from rfl]
  rw [mask_rows_length df _ (by simp [impute_mask, h1, h2])]
  rw [impute_mask]
  rw [List.countP_map]
  rfl

/-- C5, witness: the counterexample group with literal classes `[MCAR, NM]`
and scores `[1, 1]`: the KNN block is the one qualifying row, and shapes are
preserved. -/
theorem claim_C5_witness :
    (([MVClass.MCAR, MVClass.NM] : List MVClass).length
      = ([[some 20, some 20], [some 1, some 20]] : List Row).length) ∧
    (([1, 1] : List ℚ).length
      = ([[some 20, some 20], [some 1, some 20]] : List Row).length) ∧
    ((impute (fun _ => 1) (fun _ _ => 7) [[some 20, some 20], [some 1, some 20]]
        [MVClass.MCAR, MVClass.NM] [1, 1] 1 1 5 6 1
      = impute_step (fun _ => 1) (fun _ _ => 7) [MVClass.MCAR, MVClass.NM] [1, 1] 1 1 5 1 6
          (impute_step (fun _ => 1) (fun _ _ => 7) [MVClass.MCAR, MVClass.NM] [1, 1] 1 1 5 1 6
            (impute_step (fun _ => 1) (fun _ _ => 7) [MVClass.MCAR, MVClass.NM] [1, 1] 1 1 5 1 6
              (write_back [[some 20, some 20], [some 1, some 20]]
                (impute_mask [MVClass.MCAR, MVClass.NM] [1, 1] 1 MVClass.MCAR)
                (_impute_mcar (fun _ _ => 7)
                  (class_block [[some 20, some 20], [some 1, some 20]]
                    [MVClass.MCAR, MVClass.NM] [1, 1] 1 MVClass.MCAR) 6))
              MVClass.MNAR)
            MVClass.MAR)
          MVClass.NM) ∧
    List.Sublist (class_block [[some 20, some 20], [some 1, some 20]]
      [MVClass.MCAR, MVClass.NM] [1, 1] 1 MVClass.MCAR)
      [[some 20, some 20], [some 1, some 20]] ∧
    (class_block [[some 20, some 20], [some 1, some 20]]
        [MVClass.MCAR, MVClass.NM] [1, 1] 1 MVClass.MCAR).length
      = (([MVClass.MCAR, MVClass.NM] : List MVClass).zip ([1, 1] : List ℚ)).countP
          (fun p => decide (p.1 = MVClass.MCAR) && decide ((1:ℚ) ≤ p.2)) ∧
    (impute (fun _ => 1) (fun _ _ => 7) [[some 20, some 20], [some 1, some 20]]
        [MVClass.MCAR, MVClass.NM] [1, 1] 1 1 5 6 1).length
      = ([[some 20, some 20], [some 1, some 20]] : List Row).length ∧
    ∀ i, i < ([[some 20, some 20], [some 1, some 20]] : List Row).length →
      ((impute (fun _ => 1) (fun _ _ => 7) [[some 20, some 20], [some 1, some 20]]
          [MVClass.MCAR, MVClass.NM] [1, 1] 1 1 5 6 1).getD i []).length
        = ((([[some 20, some 20], [some 1, some 20]] : List Row).getD i []) : Row).length) :=
  ⟨by decide, by decide,
    claim_C5_theorem (fun _ => 1) (fun _ _ => 7)
      [[some 20, some 20], [some 1, some 20]] [MVClass.MCAR, MVClass.NM] [1, 1]
      1 1 5 6 1 (by decide) (by decide)⟩

/-- Evaluating `round2` at 1 (the score of a fully missing MNAR row). -/
theorem round2_one : round2 1 = 1 := by
  norm_num [round2, roundHalfToEven]

/-- A row with as many missing values as columns is classified MNAR: all three
observed counts are 0, so rule 1 (`n_low + n_nan == n`) fires. -/
theorem classify_row_all_missing (up : ℚ) (n : ℕ) (row : Row)
    (hlen : row.length = n) (hall : countNan row = n) :
    classify_row up n row = MVClass.MNAR := by
  have hnone : ∀ x ∈ row, x.isNone = true := by
    apply List.countP_eq_length.1
    show countNan row = row.length
    rw [hall, hlen]
  have hlow : row.countP (isLowerOrEqual up) = 0 := by
    apply List.countP_eq_zero.2
    intro x hx
    have hx' := hnone x hx
    cases x with
    | none => simp [isLowerOrEqual]
    | some v => simp at hx'
  simp only [classify_row, hlow, hall]
  simp

/-- If the MNAR mask selects row `i`, then after the MNAR iteration every cell
of that row holds a value (the left-censored sampler fills all its missing
cells). -/
theorem impute_step_mnar_filled (t : ℕ → ℚ) (g : ℕ → ℕ → ℚ)
    (cls : List MVClass) (cs : List ℚ) (min_cs d_min up_mnar std_factor : ℚ)
    (n_neighbors : ℕ) (df : List Row) (i : ℕ) (hi : i < df.length)
    (hmask : (impute_mask cls cs min_cs MVClass.MNAR).getD i false = true) :
    ∀ j, j < (df.getD i []).length →
      (((impute_step t g cls cs min_cs d_min up_mnar std_factor n_neighbors df
        MVClass.MNAR).getD i []).getD j none).isSome = true := by
  intro j hj
  have hlen : (_impute t g (class_block df cls cs min_cs MVClass.MNAR)
      MVClass.MNAR d_min up_mnar std_factor n_neighbors).length
      = (mask_rows df (impute_mask cls cs min_cs MVClass.MNAR)).length :=
    _impute_length t g _ MVClass.MNAR d_min up_mnar std_factor n_neighbors
  obtain ⟨k, hk, h1, h2⟩ :=
    (write_back_getD df (impute_mask cls cs min_cs MVClass.MNAR) _ i hlen hi).2 hmask
  have hk' : k < (class_block df cls cs min_cs MVClass.MNAR).length := by
    rw [show (class_block df cls cs min_cs MVClass.MNAR).length
      = (mask_rows df (impute_mask cls cs min_cs MVClass.MNAR)).length from rfl, ← hlen]
    exact hk
  show (((write_back df (impute_mask cls cs min_cs MVClass.MNAR)
    (_impute t g (class_block df cls cs min_cs MVClass.MNAR) MVClass.MNAR
      d_min up_mnar std_factor n_neighbors)).getD i []).getD j none).isSome = true
  rw [h2]
  rw [show _impute t g (class_block df cls cs min_cs MVClass.MNAR) MVClass.MNAR
      d_min up_mnar std_factor n_neighbors
    = _mnr_rows (fun idx => truncnorm_rvs 0 1 d_min ((up_mnar - d_min) * std_factor) (t idx))
        ((class_block df cls cs min_cs MVClass.MNAR).headD []).length 0
        (class_block df cls cs min_cs MVClass.MNAR) from rfl]
  rw [mnr_rows_getD _ _ _ 0 k hk']
  apply mnr_row_isSome
  rw [show (class_block df cls cs min_cs MVClass.MNAR).getD k []
    = (mask_rows df (impute_mask cls cs min_cs MVClass.MNAR)).getD k [] from rfl, h1]
  exact hj

/-- Positional reading of `classify_of_mvs`: entry `i` is the classification
of row `i`. -/
theorem classify_of_mvs_getD (df : List Row) (up : ℚ) (n : ℕ) :
    ∀ i, i < df.length →
      (classify_of_mvs df up n).getD i MVClass.MAR
        = classify_row up n (df.getD i []) := by
  induction df with
  | nil => intro i hi; simp at hi
  | cons r rest ih =>
    intro i hi
    cases i with
    | zero => rfl
    | succ i' =>
      have hi' : i' < rest.length := by simpa using hi
      show (classify_row up n r :: classify_of_mvs rest up n).getD (i' + 1) MVClass.MAR
        = classify_row up n ((r :: rest).getD (i' + 1) [])
      rw [List.getD_cons_succ, List.getD_cons_succ]
      exact ih i' hi'

/-- Positional reading of the direct score list. -/
theorem zip_map_cs_getD (df : List Row) :
    ∀ (cls : List MVClass) (n : ℕ) (i : ℕ), i < df.length →
      cls.length = df.length →
      ((df.zip cls).map (fun p => some (_compute_cs p.1 p.2 n))).getD i none
        = some (_compute_cs (df.getD i []) (cls.getD i MVClass.MAR) n) := by
  induction df with
  | nil => intro cls n i hi; simp at hi
  | cons r rest ih =>
    intro cls n i hi hlen
    cases cls with
    | nil => simp at hlen
    | cons c0 cls' =>
      cases i with
      | zero => rfl
      | succ i' =>
        have hi' : i' < rest.length := by simpa using hi
        have hlen' : cls'.length = rest.length := by simpa using hlen
        show (some (_compute_cs r c0 n) ::
            (rest.zip cls').map (fun p => some (_compute_cs p.1 p.2 n))).getD (i' + 1) none
          = some (_compute_cs ((r :: rest).getD (i' + 1) []) ((c0 :: cls').getD (i' + 1) MVClass.MAR) n)
        rw [List.getD_cons_succ, List.getD_cons_succ, List.getD_cons_succ]
        exact ih cls' n i' hi' hlen'

/-- Positional reading of the `Option.getD`-unwrapped score list used by
`run`. -/
theorem getD_map_getD (xs : List (Option ℚ)) :
    ∀ i, i < xs.length →
      (xs.map (fun o => o.getD 0)).getD i 0 = (xs.getD i none).getD 0 := by
  induction xs with
  | nil => intro i hi; simp at hi
  | cons x xs ih =>
    intro i hi
    cases i with
    | zero => rfl
    | succ i' =>
      have hi' : i' < xs.length := by simpa using hi
      show (x.getD 0 :: xs.map (fun o => o.getD 0)).getD (i' + 1) 0
        = ((x :: xs).getD (i' + 1) none).getD 0
      rw [List.getD_cons_succ, List.getD_cons_succ]
      exact ih i' hi'

/-- C6, counterexample: the group `[[NaN, NaN]]` (a feature with zero observed
values, 2 samples): the pipeline classifies it MNAR with confidence score 1,
and `impute` (with threshold `min_cs = 1`) fills both of its cells with values
from the left-censored sampler — the row is NOT surfaced as a missing result,
no warning exists, and its cells do receive fabricated values. -/
theorem claim_C6_counterexample :
    countNan [none, none] = ([none, none] : Row).length ∧
    classify_of_mvs [[none, none]] 4 2 = [MVClass.MNAR] ∧
    compute_cs [[none, none]] [MVClass.MNAR] 2 = [some 1] ∧
    (((impute (fun _ => 1) (fun _ _ => 0) [[none, none]] [MVClass.MNAR] [1]
        1 2 4 6 1).getD 0 []).getD 0 none).isSome = true ∧
    (((impute (fun _ => 1) (fun _ _ => 0) [[none, none]] [MVClass.MNAR] [1]
        1 2 4 6 1).getD 0 []).getD 1 none).isSome = true := by
  refine ⟨by decide, by decide, ?_, by decide, by decide⟩
  rw [compute_cs_eq_direct _ _ _ (by decide)]
  norm_num [List.zip_cons_cons, _compute_cs, countNan, round2, roundHalfToEven]

/-- C6, amended: a feature row with zero observed values in a group of `n`
samples is still assigned a class by the boundary rules — namely MNAR, via
rule 1 — and the pipeline does not crash; but its confidence score is 1, so
whenever `min_cs ≤ 1` the group-wise imputation fills every one of its cells
with sampled values instead of surfacing the row as a missing result, and no
warning is raised. -/
theorem claim_C6_theorem (t : ℕ → ℚ) (g : ℕ → ℕ → ℚ) (df : List Row) (n : ℕ)
    (up_mnar d_min min_cs std_factor : ℚ) (n_neighbors : ℕ) (i : ℕ)
    (hi : i < df.length) (hlen : (df.getD i []).length = n)
    (hall : countNan (df.getD i []) = n) (hn : 0 < n) (hmin : min_cs ≤ 1) :
    (classify_of_mvs df up_mnar n).getD i MVClass.MAR = MVClass.MNAR ∧
    ((compute_cs df (classify_of_mvs df up_mnar n) n).map (fun o => o.getD 0)).getD i 0
      = 1 ∧
    ∀ j, j < n →
      (((impute t g df (classify_of_mvs df up_mnar n)
          ((compute_cs df (classify_of_mvs df up_mnar n) n).map (fun o => o.getD 0))
          min_cs d_min up_mnar n_neighbors std_factor).getD i []).getD j none).isSome
        = true := by
  have hclslen : (classify_of_mvs df up_mnar n).length = df.length :=
    List.length_map _ _
  have hclsi : (classify_of_mvs df up_mnar n).getD i MVClass.MAR = MVClass.MNAR := by
    rw [classify_of_mvs_getD df up_mnar n i hi]
    exact classify_row_all_missing up_mnar n (df.getD i []) hlen hall
  have hcs := compute_cs_eq_direct df (classify_of_mvs df up_mnar n) n hclslen
  have hcslen : (compute_cs df (classify_of_mvs df up_mnar n) n).length = df.length := by
    rw [hcs]
    simp [hclslen]
  have hcsi : ((compute_cs df (classify_of_mvs df up_mnar n) n).map
      (fun o => o.getD 0)).getD i 0 = 1 := by
    rw [getD_map_getD _ i (by rw [hcslen]; exact hi)]
    rw [hcs]
    rw [zip_map_cs_getD df (classify_of_mvs df up_mnar n) n i hi hclslen]
    rw [hclsi]
    show _compute_cs (df.getD i []) MVClass.MNAR n = 1
    show round2 ((countNan (df.getD i []) : ℚ) / n) = 1
    rw [hall]
    rw [div_self (by exact_mod_cast hn.ne')]
    exact round2_one
  refine ⟨hclsi, hcsi, ?_⟩
  intro j hj
  set cls := classify_of_mvs df up_mnar n with hclsdef
  set csq := (compute_cs df cls n).map (fun o => o.getD 0) with hcsqdef
  have hcsqlen : csq.length = df.length := by
    rw [hcsqdef, List.length_map]
    exact hcslen
  have e1 : impute t g df cls csq min_cs d_min up_mnar n_neighbors std_factor
      = impute_step t g cls csq min_cs d_min up_mnar std_factor n_neighbors
          (impute_step t g cls csq min_cs d_min up_mnar std_factor n_neighbors
            (impute_step t g cls csq min_cs d_min up_mnar std_factor n_neighbors
              (impute_step t g cls csq min_cs d_min up_mnar std_factor n_neighbors
                df MVClass.MCAR) MVClass.MNAR) MVClass.MAR) MVClass.NM := rfl
  rw [e1, impute_step_id_nm, impute_step_id_mar]
  set df1 := impute_step t g cls csq min_cs d_min up_mnar std_factor n_neighbors
    df MVClass.MCAR with hdf1
  have l1 : df1.length = df.length := impute_step_length _ _ _ _ _ _ _ _ _ _ _
  have u1 : df1.getD i [] = df.getD i [] := by
    apply impute_step_unchanged t g cls csq min_cs d_min up_mnar std_factor
      n_neighbors df MVClass.MCAR i hi
    rw [impute_mask_getD cls csq min_cs MVClass.MCAR i (by omega) (by omega)]
    rw [hclsi]
    simp
  have hmaski : (impute_mask cls csq min_cs MVClass.MNAR).getD i false = true := by
    rw [impute_mask_getD cls csq min_cs MVClass.MNAR i (by omega) (by omega)]
    rw [hclsi, hcsi]
    simp [hmin]
  have hfill := impute_step_mnar_filled t g cls csq min_cs d_min up_mnar
    std_factor n_neighbors df1 i (by rw [l1]; exact hi) hmaski j
    (by rw [u1, hlen]; exact hj)
  exact hfill

/-- C6, witness: the fully missing row `[NaN, NaN]` as the single feature of a
2-sample group, with `min_cs = 1`: MNAR class, score 1, both cells filled. -/
theorem claim_C6_witness :
    0 < ([[none, none]] : List Row).length ∧
    ((([[none, none]] : List Row).getD 0 []).length = 2) ∧
    countNan (([[none, none]] : List Row).getD 0 []) = 2 ∧ 0 < 2 ∧ (1 : ℚ) ≤ 1 ∧
    ((classify_of_mvs [[none, none]] 4 2).getD 0 MVClass.MAR = MVClass.MNAR ∧
    ((compute_cs [[none, none]] (classify_of_mvs [[none, none]] 4 2) 2).map
      (fun o => o.getD 0)).getD 0 0 = 1 ∧
    ∀ j, j < 2 →
      (((impute (fun _ => 1) (fun _ _ => 0) [[none, none]]
          (classify_of_mvs [[none, none]] 4 2)
          ((compute_cs [[none, none]] (classify_of_mvs [[none, none]] 4 2) 2).map
            (fun o => o.getD 0))
          1 2 4 6 1).getD 0 []).getD j none).isSome = true) :=
  ⟨by decide, by decide, by decide, by decide, by decide,
    claim_C6_theorem (fun _ => 1) (fun _ _ => 0) [[none, none]] 2 4 2 1 1 6 0
      (by decide) (by decide) (by decide) (by decide) (by decide)⟩

/-- C7: `cImpute.run` performs no configuration validation. Called with
`loc_up_mnar = 2` (outside `[0, 1]`) and `min_cs = -1` (outside `[0, 1]`) on a
one-group matrix, it does not raise: it runs the full pipeline and returns a
complete annotated output (here the boundary becomes `up_mnar = 1 + 2*(1-1)`,
every row classifies MNAR with score 0, and since `-1 ≤ 0` the rows are
selected for MNAR imputation), contradicting fail-fast rejection before any
computation. -/
theorem claim_C7_theorem :
    run (fun _ _ => 1) (fun _ _ _ => 0) [(1, [[some 1]])] 2 (-1) 1 6
      = some ⟨[[[some 1]]], [0], [0], [[0]], [[MVClass.MNAR]]⟩ := by
  have hb : get_up_mnar (([(1, [[some 1]])] : List (ℕ × List Row)).map Prod.snd).flatten 2
      = some (1, 1 + 2 * (1 - 1)) := rfl
  have hcls : classify_of_mvs [[some 1]] (1 + 2 * (1 - 1)) 1 = [MVClass.MNAR] := by
    have h11 : (1 : ℚ) ≤ 1 + 2 * (1 - 1) := by norm_num
    simp [classify_of_mvs, classify_row, countNan, isHigher, isLowerOrEqual, h11]
  have hcs : compute_cs [[some 1]] [MVClass.MNAR] 1 = [some 0] := by
    rw [compute_cs_eq_direct _ _ _ (by decide)]
    norm_num [_compute_cs, countNan, round2, roundHalfToEven]
  have himp : impute (fun _ => 1) (fun _ _ => 0) [[some 1]] [MVClass.MNAR] [0]
      (-1) 1 (1 + 2 * (1 - 1)) 6 1 = [[some 1]] := by
    have hle : ((-1 : ℚ) ≤ 0) = True := by norm_num
    simp [impute, LIST_MV_CLASSES, impute_step, impute_mask, class_block,
      mask_rows, List.zip_cons_cons, _impute, _impute_mcar, _impute_mnr,
      _mcar_rows, _mcar_row, _mnr_rows, _mnr_row, write_back, hle]
  unfold run
  rw [hb]
  simp only [run_groups, hcls, hcs, List.map_cons, List.map_nil, Option.getD_some]
  rw [himp]
  simp only [RunResult.mk.injEq, Option.some.injEq]
  refine ⟨trivial, ?_, ?_, trivial, trivial⟩
  · norm_num [col_vals, list_mean, round2, roundHalfToEven, List.range_succ]
  · norm_num [col_vals, list_mean, list_var, List.range_succ]

end CImpute
